import Mathlib

/-!
Verification of the `fusefs` namespace cache of the shade repository.

The embedding below follows `fusefs.go` (the `Node`/`Tree` data model and the
functions `NewTree`, `Tree.Refresh`, `Tree.addParents`, `Tree.HasChild`,
`Tree.NumNodes`, `Node.Synthetic`).

Modelling conventions:

* Go path strings are embedded as lists of path segments: the Go map key
  `"a/b/c"` is `["a", "b", "c"]` and the root key `"/"` is `[]`.  Splitting
  the string on every `/` makes this encoding injective, and Go's
  `path.Split` followed by `strings.TrimSuffix(dir, "/")` corresponds
  exactly to `List.dropLast` / `List.getLast` on the segment list: e.g.
  `path.Split "a//b" = ("a//", "b")`, trimmed to `"a/"`, which is the
  encoding of `["a", ""] = ["a", "", "b"].dropLast`.  The single string the
  encoding cannot distinguish is a record whose `Filename` is literally
  `"/"` (the root key itself); `addParents` on `[]` is therefore left as the
  identity and every theorem that depends on `addParents` assumes a
  non-root filename.
* Go `time.Time` is embedded as `Int` (a point on an integer time line);
  `time.Time.After` is `>`; the zero `time.Time` used for synthesized
  directories is `0`.
* Go byte slices (`[]byte`) for hashes and raw chunks are `List Nat`; a
  `nil` slice, which Go distinguishes from an empty one (`Node.Synthetic`
  tests `Sha256sum == nil`), is `Option.none`.
* The Go map `map[string]Node` is an association list with unique keys
  (`upsert` replaces in place), so `len` is the number of distinct keys.
  The Go set `map[string]bool` of child names is a duplicate-free
  `List String`.
* Writing to a `nil` Go map (`parent.Children[f] = true` in `addParents`
  when `Children` is `nil`) is a runtime panic; the model makes `addParents`
  return `Option`, with `none` for the panic, and a panic aborts the
  surrounding refresh pass with the `panicked` outcome.
* `drive.Client` and `shade.File` live outside the extracted sources, so
  they are modelled from the spec (see `Backend` and `ShadeFile`); the
  cache logic itself is translated from `fusefs.go`.
-/

namespace Shade

/-- A path, as the list of segments of the slash-separated Go string; the
root `"/"` is `[]`. -/
abbrev Path := List String

/-- A SHA-256 sum, a Go `[]byte` value. -/
abbrev Hash := List Nat

/-- A raw chunk of bytes, a Go `[]byte` value. -/
abbrev Blob := List Nat

/-- Modelled from the spec: the File Metadata Record (`shade.File`, outside
the extracted sources) as the cache consumes it — full path, size in bytes,
and last-modified timestamp (§3, §4.2 of the design). -/
structure ShadeFile where
  filename : Path
  filesize : Int
  modifiedTime : Int
  deriving DecidableEq, Repr

/-- `fusefs.Node`: compact representation of a file.  `children = none` is a
Go `nil` map, `sha256sum = none` a Go `nil` byte slice. -/
structure Node where
  filename : Path
  filesize : Nat
  modifiedTime : Int
  sha256sum : Option Hash
  children : Option (List String)
  deriving DecidableEq, Repr

/-- `Node.Synthetic`: true exactly when `Sha256sum == nil`. -/
def Node.Synthetic (n : Node) : Bool :=
  n.sha256sum = none

/-- The `map[string]Node` of a `Tree`, as an association list with unique
keys. -/
abbrev Nodes := List (Path × Node)

/-- Go map read `m[k]` (presence variant): the value stored at `k`. -/
def lookupNode : Nodes → Path → Option Node
  | [], _ => none
  | (k, v) :: rest, p => if k = p then some v else lookupNode rest p

/-- Go map write `m[k] = v`: replace in place, or append a fresh key. -/
def upsert : Nodes → Path → Node → Nodes
  | [], p, v => [(p, v)]
  | (k, w) :: rest, p, v =>
    if k = p then (p, v) :: rest else (k, w) :: upsert rest p v

/-- `fusefs.Tree` (the lock, client handle and debug flag carry no model
state; the backend is passed to `refresh` explicitly). -/
structure Tree where
  nodes : Nodes
  deriving DecidableEq, Repr

/-- `Tree.NumNodes`: number of entries of the node map. -/
def Tree.NumNodes (t : Tree) : Nat :=
  t.nodes.length

/-- `Tree.HasChild` on a raw node map: `t.nodes[parent].Children[child]`,
where both missing-key reads yield the zero value `false`. -/
def hasChildB (m : Nodes) (parent : Path) (child : String) : Bool :=
  match lookupNode m parent with
  | none => false
  | some n =>
    match n.children with
    | none => false
    | some cs => child ∈ cs

/-- `Tree.HasChild`. -/
def Tree.HasChild (t : Tree) (parent : Path) (child : String) : Bool :=
  hasChildB t.nodes parent child

/-- Insertion into the `map[string]bool` of child names
(`parent.Children[f] = true`). -/
def insertName (cs : List String) (f : String) : List String :=
  if f ∈ cs then cs else f :: cs

/-- Body of `Tree.addParents`, structurally recursive on the reversed
path: the argument is `filepath.reverse`, so its head is the final segment
`f` of `path.Split` and the reverse of its tail is the trimmed directory
`dir` (`filepath.dropLast`).  `none` models the Go panic of
`parent.Children[f] = true` when the existing parent's `Children` map is
`nil`. -/
def addParentsRev (nodes : Nodes) : List String → Option Nodes
  | [] => some nodes
  | f :: restRev =>
    let dir := restRev.reverse
    match lookupNode nodes dir with
    | none =>
      -- if the parent node doesn't yet exist, initialize it
      let nodes' := upsert nodes dir
        { filename := dir, filesize := 0, modifiedTime := 0,
          sha256sum := none, children := some [f] }
      if dir = [] then some nodes' else addParentsRev nodes' restRev
    | some parent =>
      match parent.children with
      | none => none
      | some cs =>
        let nodes' := upsert nodes dir { parent with children := some (insertName cs f) }
        if dir = [] then some nodes' else addParentsRev nodes' restRev

/-- `Tree.addParents`: walk from `filepath` to the root, registering each
segment as a child of its parent directory and synthesizing missing
ancestors; `none` is the nil-map panic.  (`addParents []` cannot arise
from a record with a well-formed, non-root filename and is the identity;
see the module comment.) -/
def addParents (filepath : Path) (nodes : Nodes) : Option Nodes :=
  addParentsRev nodes filepath.reverse

/-- The `Node` literal built from a parsed record in `Tree.Refresh`
(`uint64(file.Filesize)` wraps the Go `int64` into `2^64` residues). -/
def nodeOf (file : ShadeFile) (sha256sum : Hash) : Node :=
  { filename := file.filename
    filesize := (file.filesize % (2 ^ 64 : Int)).toNat
    modifiedTime := file.modifiedTime
    sha256sum := some sha256sum
    children := none }

/-- The per-record critical section of `Tree.Refresh` (lines 170–186):
build the node, skip it when the existing node at that path is strictly
newer, otherwise install it and run `addParents`.  The `Bool` reports
whether the node was installed (whether `knownNodes` gains the hash);
`none` propagates the `addParents` panic. -/
def tryInstall (nodes : Nodes) (sha256sum : Hash) (file : ShadeFile) :
    Option (Nodes × Bool) :=
  let node := nodeOf file sha256sum
  match lookupNode nodes node.filename with
  | some existing =>
    if node.modifiedTime < existing.modifiedTime then
      some (nodes, false)
    else
      match addParents node.filename (upsert nodes node.filename node) with
      | none => none
      | some nodes' => some (nodes', true)
  | none =>
    match addParents node.filename (upsert nodes node.filename node) with
    | none => none
    | some nodes' => some (nodes', true)

/-- Outcome of one `Tree.Refresh` call: normal return with the final tree
and the pass-local `knownNodes` set, the `ListFiles` error return, or a
runtime panic (which in Go never returns from `Refresh` at all). -/
inductive RefreshResult where
  | ok (t : Tree) (known : List Hash)
  | listError
  | panicked
  deriving DecidableEq, Repr

/-- Modelled from the spec: the Backend Contract (`drive.Client`, outside
the extracted sources) as the cache consumes it — an enumeration call that
may fail as a whole (§4.1 `ListContentHashes`, Go `ListFiles`) and a
per-hash fetch that may fail per record (§4.1 `FetchBlob`, Go `GetChunk`). -/
structure Backend where
  listFiles : Option (List Hash)
  getChunk : Hash → Option Blob

/-- The per-hash loop of `Tree.Refresh` (lines 151–187), parameterised by
the record parser `fj` (`shade.File.FromJSON`) and the backend fetch. -/
def refreshLoop (fj : Blob → Option ShadeFile) (getChunk : Hash → Option Blob) :
    List Hash → List Hash → Nodes → RefreshResult
  | [], known, nodes => .ok ⟨nodes⟩ known
  | sha256sum :: rest, known, nodes =>
    if sha256sum ∈ known then
      refreshLoop fj getChunk rest known nodes
    else
      match getChunk sha256sum with
      | none => refreshLoop fj getChunk rest known nodes
      | some f =>
        match fj f with
        | none => refreshLoop fj getChunk rest known nodes
        | some file =>
          match tryInstall nodes sha256sum file with
          | none => .panicked
          | some (nodes', installed) =>
            refreshLoop fj getChunk rest
              (if installed then sha256sum :: known else known) nodes'

/-- `Tree.Refresh`: enumerate, then run the per-hash loop with an empty
`knownNodes` set. -/
def refresh (fj : Blob → Option ShadeFile) (b : Backend) (t : Tree) :
    RefreshResult :=
  match b.listFiles with
  | none => .listError
  | some newFiles => refreshLoop fj b.getChunk newFiles [] t.nodes

/-- The initial node map of `NewTree`: the root node, with an allocated
(empty, non-nil) `Children` map. -/
def initialTree : Tree :=
  ⟨[([], { filename := [], filesize := 0, modifiedTime := 0,
           sha256sum := none, children := some [] })]⟩

/-- `NewTree`: one synchronous bootstrap `Refresh` from the initial map
(the periodic-refresh goroutine carries no model state). -/
def newTree (fj : Blob → Option ShadeFile) (b : Backend) : RefreshResult :=
  refresh fj b initialTree

/-- A sequence of refresh passes as driven by `NewTree` and
`periodicRefresh`: an error return leaves the cached state untouched and
the schedule continues; a panic kills the process (`none`). -/
def runPasses (fj : Blob → Option ShadeFile) : List Backend → Tree → Option Tree
  | [], t => some t
  | b :: rest, t =>
    match refresh fj b t with
    | .ok t' _ => runPasses fj rest t'
    | .listError => runPasses fj rest t
    | .panicked => none

/-- The key set of the node map. -/
def keysF (m : Nodes) : Finset Path :=
  (m.map Prod.fst).toFinset

/-- `q` is one of the directories the `addParentsRev` walk over `r`
touches: the reverse of `q` is a proper suffix of `r`. -/
def TouchedDir (q : Path) (r : List String) : Prop :=
  q.reverse <:+ r ∧ q.reverse ≠ r

/-- The synthetic directory node `addParents` creates for a missing
ancestor `dir` whose first registered child is `f`. -/
def synthNode (dir : Path) (f : String) : Node :=
  { filename := dir, filesize := 0, modifiedTime := 0,
    sha256sum := none, children := some [f] }

/-- `n` is `n0` with an unchanged identity and a `Children` set that can
only have grown (`addParents` never shrinks or retypes an existing node). -/
def NodeGrows (n0 n : Node) : Prop :=
  n.filename = n0.filename ∧ n.filesize = n0.filesize ∧
  n.modifiedTime = n0.modifiedTime ∧ n.sha256sum = n0.sha256sum ∧
  (n0.children = none → n.children = none) ∧
  (∀ cs0, n0.children = some cs0 → ∃ cs, n.children = some cs ∧ ∀ x, x ∈ cs0 → x ∈ cs)

/-- The directories the `addParentsRev` walk over `r` touches, in walk
order (deepest first). -/
def dirsRevList : List String → List Path
  | [] => []
  | _ :: restRev => restRev.reverse :: dirsRevList restRev

/-- Fetch-then-parse, the two per-record steps of `Refresh` combined: a
hash decodes iff `GetChunk` and `FromJSON` both succeed. -/
def decodeF (fj : Blob → Option ShadeFile) (gc : Hash → Option Blob)
    (sha : Hash) : Option ShadeFile :=
  (gc sha).bind fj

/-- Go `path` membership chain: every ancestor of `p` (every `p.take i`)
reports the next segment of `p` as a child.  This is the reachability of
`p` from the root through `Children` membership. -/
def reachableB (m : Nodes) (p : Path) : Bool :=
  (List.range p.length).all fun i => hasChildB m (p.take i) (p.getD i "")

/-- The proper ancestors (directory prefixes) of a path, deepest first. -/
def dirsOf (p : Path) : List Path :=
  dirsRevList p.reverse

/-- A parser table: blobs are looked up in an association list of parsed
records (a concrete `shade.File.FromJSON` for tests). -/
def fjTable (tbl : List (Blob × ShadeFile)) : Blob → Option ShadeFile :=
  fun blob => tbl.lookup blob

/-- A backend whose chunks are their own hashes and whose enumeration
always succeeds. -/
def idBackend (hs : List Hash) : Backend :=
  ⟨some hs, fun sha => some sha⟩

/-- Two records for the same path `"a"` with the same modified time but
different content hashes. -/
def tblEqualTimes : List (Blob × ShadeFile) :=
  [([1], ⟨["a"], 0, 5⟩), ([2], ⟨["a"], 0, 5⟩)]

/-- A record for `"a/b"` listed before a strictly newer record for its
ancestor `"a"`: the second install wipes the directory entry at `"a"`. -/
def tblCollide : List (Blob × ShadeFile) :=
  [([1], ⟨["a","b"], 0, 1⟩), ([2], ⟨["a"], 0, 2⟩)]

/-- A record for `"a"` listed before a record for `"a/b"`: installing the
second walks into the nil `Children` map of the file node at `"a"`. -/
def tblPanic : List (Blob × ShadeFile) :=
  [([1], ⟨["a"], 0, 1⟩), ([2], ⟨["a","b"], 0, 2⟩)]

/-- The stored content hash at a path in the tree a refresh returns
(`none` when the pass did not return a tree, `some (sha of the node)`
otherwise). -/
def shaAt (r : RefreshResult) (p : Path) : Option (Option Hash) :=
  match r with
  | .ok t _ => (lookupNode t.nodes p).map Node.sha256sum
  | _ => none

/-- Whether a path is present in the tree a refresh returns. -/
def presentAt (r : RefreshResult) (p : Path) : Option Bool :=
  match r with
  | .ok t _ => some (lookupNode t.nodes p).isSome
  | _ => none

/-- Whether a path is reachable from the root in the tree a refresh
returns. -/
def reachAt (r : RefreshResult) (p : Path) : Option Bool :=
  match r with
  | .ok t _ => some (reachableB t.nodes p)
  | _ => none

/-- The node count of the tree a refresh returns. -/
def numNodesAt (r : RefreshResult) : Option Nat :=
  match r with
  | .ok t _ => some t.NumNodes
  | _ => none

/-- A `HasChild` query against the tree a refresh returns. -/
def childAt (r : RefreshResult) (p : Path) (c : String) : Option Bool :=
  match r with
  | .ok t _ => some (t.HasChild p c)
  | _ => none

/-- The state invariant of the reachability claim: over a set `good` of
permitted record paths (mutually non-ancestor, non-root), every key of
the node map is the root or a (weak) ancestor of a good path, every key
that is the root or a strict ancestor of a good path holds a directory
node (non-nil `Children`), and every key is reachable from the root
through `Children` membership. -/
def GoodState (good : Path → Prop) (m : Nodes) : Prop :=
  (∀ (q : Path) (n : Node), lookupNode m q = some n →
    q = [] ∨ ∃ p, good p ∧ ∃ u, q ++ u = p) ∧
  (∀ (q : Path) (n : Node), lookupNode m q = some n →
    (q = [] ∨ ∃ p, good p ∧ ∃ u, u ≠ [] ∧ q ++ u = p) →
    n.children.isSome = true) ∧
  (∀ (q : Path) (n : Node), lookupNode m q = some n →
    reachableB m q = true)

/-- The set of directory prefixes of a family of paths: every proper
ancestor of a member, and the root. -/
def dirSet (ps : List Path) : Finset Path :=
  insert [] (ps.toFinset.biUnion fun p => (dirsOf p).toFinset)

/-- `K` of the tree-shape property: the number of distinct directory
prefixes (synthesized ancestors, root included) of a family of paths. -/
def KOf (ps : List Path) : Nat :=
  (dirSet ps).card

/-- The invariant of one refresh pass over fresh, pairwise
ancestor-free records: `done` are the hashes already installed, `F`
names the record each hash decodes to.  Record nodes sit at their paths
exactly as built, each is reachable through `Children` membership, every
non-record key is a directory node, and the key set is the root plus the
record paths plus their ancestors. -/
def PassInv (F : Hash → ShadeFile) (done : List Hash) (m : Nodes) : Prop :=
  (∀ sha, sha ∈ done → lookupNode m (F sha).filename = some (nodeOf (F sha) sha)) ∧
  (∀ sha, sha ∈ done → reachableB m (F sha).filename = true) ∧
  (∀ (q : Path) (n : Node), lookupNode m q = some n →
    (∀ sha, sha ∈ done → q ≠ (F sha).filename) → n.children.isSome = true) ∧
  keysF m = insert []
    ((done.map fun sha => (F sha).filename).toFinset ∪
      (done.map fun sha => (F sha).filename).toFinset.biUnion
        fun p => (dirsOf p).toFinset) ∧
  (m.map Prod.fst).Nodup

/-! ## Basic facts about the Go map embedding -/

theorem lookup_upsert (m : Nodes) (k : Path) (v : Node) (q : Path) :
    lookupNode (upsert m k v) q = if q = k then some v else lookupNode m q := by
  induction m with
  | nil =>
    simp only [upsert, lookupNode]
    by_cases hq : k = q
    · subst hq
      simp
    · rw [if_neg hq, if_neg (fun h : q = k => hq h.symm)]
  | cons kv rest ih =>
    obtain ⟨k', v'⟩ := kv
    simp only [upsert]
    by_cases hk : k' = k
    · subst hk
      rw [if_pos rfl]
      simp only [lookupNode]
      by_cases hq : k' = q
      · subst hq
        simp
      · rw [if_neg hq, if_neg hq, if_neg (fun h : q = k' => hq h.symm)]
    · rw [if_neg hk]
      simp only [lookupNode]
      by_cases hq : k' = q
      · subst hq
        rw [if_pos rfl, if_neg (fun h : k' = k => hk h), if_pos rfl]
      · rw [if_neg hq, if_neg hq, ih]

theorem upsert_noop (m : Nodes) (k : Path) (v : Node)
    (h : lookupNode m k = some v) : upsert m k v = m := by
  induction m with
  | nil => simp [lookupNode] at h
  | cons kv rest ih =>
    obtain ⟨k', v'⟩ := kv
    by_cases hk : k' = k
    · subst hk
      simp [lookupNode] at h
      simp [upsert, h]
    · simp [lookupNode, hk] at h
      simp [upsert, hk, ih h]

theorem isSome_lookup_iff (m : Nodes) (q : Path) :
    (lookupNode m q).isSome = true ↔ q ∈ m.map Prod.fst := by
  induction m with
  | nil => simp [lookupNode]
  | cons kv rest ih =>
    obtain ⟨k', v'⟩ := kv
    simp only [lookupNode, List.map_cons, List.mem_cons]
    by_cases hq : k' = q
    · subst hq
      rw [if_pos rfl]
      exact iff_of_true rfl (Or.inl rfl)
    · rw [if_neg hq, ih]
      constructor
      · exact Or.inr
      · intro h
        rcases h with h | h
        · exact absurd h.symm hq
        · exact h

theorem map_fst_upsert (m : Nodes) (k : Path) (v : Node) :
    (upsert m k v).map Prod.fst =
      if (lookupNode m k).isSome then m.map Prod.fst else m.map Prod.fst ++ [k] := by
  induction m with
  | nil => simp [upsert, lookupNode]
  | cons kv rest ih =>
    obtain ⟨k', v'⟩ := kv
    by_cases hk : k' = k
    · subst hk
      simp [upsert, lookupNode]
    · simp [upsert, hk, lookupNode, ih]
      by_cases hs : (lookupNode rest k).isSome <;> simp [hs]

theorem length_upsert (m : Nodes) (k : Path) (v : Node) :
    (upsert m k v).length =
      if (lookupNode m k).isSome then m.length else m.length + 1 := by
  have h := congrArg List.length (map_fst_upsert m k v)
  simpa [apply_ite List.length] using h

theorem length_le_upsert (m : Nodes) (k : Path) (v : Node) :
    m.length ≤ (upsert m k v).length := by
  rw [length_upsert]
  split <;> omega

theorem keysF_upsert (m : Nodes) (k : Path) (v : Node) :
    keysF (upsert m k v) = insert k (keysF m) := by
  rw [keysF, keysF, map_fst_upsert]
  split
  · rename_i hs
    rw [isSome_lookup_iff] at hs
    ext q
    simp only [List.mem_toFinset, Finset.mem_insert]
    constructor
    · exact fun h => Or.inr h
    · rintro (rfl | h) <;> [exact hs; exact h]
  · ext q
    simp only [List.mem_toFinset, List.mem_append, Finset.mem_insert,
      List.mem_singleton]
    tauto

theorem nodup_upsert (m : Nodes) (k : Path) (v : Node)
    (h : (m.map Prod.fst).Nodup) : ((upsert m k v).map Prod.fst).Nodup := by
  rw [map_fst_upsert]
  split
  · exact h
  · rename_i hs
    rw [List.nodup_append]
    refine ⟨h, List.nodup_singleton k, ?_⟩
    intro x hx
    simp only [List.mem_singleton]
    intro hxk
    subst hxk
    rw [← isSome_lookup_iff] at hx
    simp [hx] at hs

theorem mem_keysF (m : Nodes) (q : Path) :
    q ∈ keysF m ↔ (lookupNode m q).isSome = true := by
  rw [keysF, List.mem_toFinset, isSome_lookup_iff]

/-! ## Directories touched by `addParents`

`addParentsRev` consumes the reversed path; the directories it creates or
updates are exactly the reverses of the proper suffixes of its argument,
i.e. the proper ancestors (`List.take`-images) of the forward path. -/

theorem not_touchedDir_nil (q : Path) : ¬ TouchedDir q [] := by
  rintro ⟨hs, hne⟩
  exact hne (List.eq_nil_of_suffix_nil hs)

theorem touchedDir_cons (q : Path) (f : String) (r : List String) :
    TouchedDir q (f :: r) ↔ q = r.reverse ∨ TouchedDir q r := by
  constructor
  · rintro ⟨hs, hne⟩
    rcases List.suffix_cons_iff.1 hs with h | h
    · exact absurd h hne
    · by_cases hqr : q.reverse = r
      · left
        rw [← hqr, List.reverse_reverse]
      · exact Or.inr ⟨h, hqr⟩
  · rintro (rfl | ⟨hs, hne⟩)
    · refine ⟨by rw [List.reverse_reverse]; exact List.suffix_cons f r, ?_⟩
      rw [List.reverse_reverse]
      intro h
      exact absurd (congrArg List.length h) (by simp)
    · refine ⟨hs.trans (List.suffix_cons f r), ?_⟩
      intro h
      have h1 : q.reverse.length ≤ r.length := hs.length_le
      have h2 : q.reverse.length = r.length + 1 := by rw [h]; simp
      omega

theorem touchedDir_reverse_iff (q p : Path) :
    TouchedDir q p.reverse ↔ ∃ i, i < p.length ∧ q = p.take i := by
  constructor
  · rintro ⟨⟨u, hu⟩, hne⟩
    have hp : q ++ u.reverse = p := by
      have := congrArg List.reverse hu
      simpa using this
    refine ⟨q.length, ?_, ?_⟩
    · have hlen := congrArg List.length hp
      simp at hlen
      have hu0 : u ≠ [] := by
        rintro rfl
        simp at hu
        exact hne (by rw [hu])
      have : 0 < u.length := List.length_pos.2 hu0
      omega
    · rw [← hp, List.take_left]
  · rintro ⟨i, hi, rfl⟩
    have hsplit : p.take i ++ p.drop i = p := List.take_append_drop i p
    constructor
    · refine ⟨(p.drop i).reverse, ?_⟩
      rw [← List.reverse_append, hsplit]
    · intro h
      have := congrArg List.length h
      simp [List.length_take] at this
      omega

theorem touchedDir_exists_head (q : Path) (r : List String)
    (h : TouchedDir q r) : ∃ f, (f :: q.reverse) <:+ r := by
  obtain ⟨⟨u, hu⟩, hne⟩ := h
  have hu0 : u ≠ [] := by
    rintro rfl
    simp at hu
    exact hne hu
  rcases List.eq_nil_or_concat u with rfl | ⟨us, f, rfl⟩
  · exact absurd rfl hu0
  · exact ⟨f, us, by rw [← hu]; simp⟩

theorem head_suffix_touchedDir (q : Path) (f : String) (r : List String)
    (h : (f :: q.reverse) <:+ r) : TouchedDir q r := by
  obtain ⟨u, hu⟩ := h
  constructor
  · exact ⟨u ++ [f], by rw [← hu]; simp⟩
  · intro hq
    have := hq ▸ congrArg List.length hu
    simp at this
    omega

/-! ## Properties of `addParents` -/

theorem mem_insertName (cs : List String) (f x : String) :
    x ∈ insertName cs f ↔ x = f ∨ x ∈ cs := by
  unfold insertName
  split
  · rename_i hf
    constructor
    · exact Or.inr
    · rintro (rfl | h) <;> [exact hf; exact h]
  · simp [List.mem_cons]

theorem self_mem_insertName (cs : List String) (f : String) :
    f ∈ insertName cs f :=
  (mem_insertName cs f f).2 (Or.inl rfl)

theorem insertName_of_mem (cs : List String) (f : String) (h : f ∈ cs) :
    insertName cs f = cs := by
  unfold insertName
  rw [if_pos h]

theorem addParentsRev_frame (r : List String) :
    ∀ nodes m' : Nodes, addParentsRev nodes r = some m' →
    ∀ q : Path, ¬ TouchedDir q r → lookupNode m' q = lookupNode nodes q := by
  induction r with
  | nil =>
    intro nodes m' h q _
    simp only [addParentsRev, Option.some_inj] at h
    rw [h]
  | cons f rest ih =>
    intro nodes m' h q hq
    have hqd : q ≠ rest.reverse := fun hqe =>
      hq ((touchedDir_cons q f rest).2 (Or.inl hqe))
    have hqt : ¬ TouchedDir q rest := fun ht =>
      hq ((touchedDir_cons q f rest).2 (Or.inr ht))
    simp only [addParentsRev] at h
    cases hl : lookupNode nodes rest.reverse with
    | none =>
      simp only [hl] at h
      by_cases hd : rest.reverse = []
      · rw [if_pos hd, Option.some_inj] at h
        subst h
        rw [lookup_upsert, if_neg hqd]
      · rw [if_neg hd] at h
        rw [ih _ _ h q hqt, lookup_upsert, if_neg hqd]
    | some parent =>
      simp only [hl] at h
      cases hc : parent.children with
      | none => simp [hc] at h
      | some cs =>
        simp only [hc] at h
        by_cases hd : rest.reverse = []
        · rw [if_pos hd, Option.some_inj] at h
          subst h
          rw [lookup_upsert, if_neg hqd]
        · rw [if_neg hd] at h
          rw [ih _ _ h q hqt, lookup_upsert, if_neg hqd]

theorem sha_upsert_of (nodes : Nodes) (k : Path) (v : Node)
    (hv : v.sha256sum = (lookupNode nodes k).bind Node.sha256sum) (q : Path) :
    (lookupNode (upsert nodes k v) q).bind Node.sha256sum =
      (lookupNode nodes q).bind Node.sha256sum := by
  rw [lookup_upsert]
  by_cases hq : q = k
  · subst hq
    rw [if_pos rfl, Option.some_bind, hv]
  · rw [if_neg hq]

theorem addParentsRev_sha (r : List String) :
    ∀ nodes m' : Nodes, addParentsRev nodes r = some m' →
    ∀ q : Path, (lookupNode m' q).bind Node.sha256sum =
      (lookupNode nodes q).bind Node.sha256sum := by
  induction r with
  | nil =>
    intro nodes m' h q
    simp only [addParentsRev, Option.some_inj] at h
    rw [h]
  | cons f rest ih =>
    intro nodes m' h q
    simp only [addParentsRev] at h
    cases hl : lookupNode nodes rest.reverse with
    | none =>
      simp only [hl] at h
      have hv : (synthNode rest.reverse f).sha256sum =
          (lookupNode nodes rest.reverse).bind Node.sha256sum := by
        rw [hl]
        rfl
      by_cases hd : rest.reverse = []
      · rw [if_pos hd, Option.some_inj] at h
        subst h
        exact sha_upsert_of nodes rest.reverse _ hv q
      · rw [if_neg hd] at h
        rw [ih _ _ h q]
        exact sha_upsert_of nodes rest.reverse _ hv q
    | some parent =>
      simp only [hl] at h
      cases hc : parent.children with
      | none => simp [hc] at h
      | some cs =>
        simp only [hc] at h
        have hv : ({ parent with children := some (insertName cs f) } : Node).sha256sum =
            (lookupNode nodes rest.reverse).bind Node.sha256sum := by
          rw [hl]
          rfl
        by_cases hd : rest.reverse = []
        · rw [if_pos hd, Option.some_inj] at h
          subst h
          exact sha_upsert_of nodes rest.reverse _ hv q
        · rw [if_neg hd] at h
          rw [ih _ _ h q]
          exact sha_upsert_of nodes rest.reverse _ hv q

theorem nodeGrows_refl (n : Node) : NodeGrows n n := by
  refine ⟨rfl, rfl, rfl, rfl, fun h => h, fun cs0 h => ⟨cs0, h, fun x hx => hx⟩⟩

theorem nodeGrows_trans {n0 n1 n2 : Node}
    (h01 : NodeGrows n0 n1) (h12 : NodeGrows n1 n2) : NodeGrows n0 n2 := by
  obtain ⟨a1, b1, c1, d1, e1, f1⟩ := h01
  obtain ⟨a2, b2, c2, d2, e2, f2⟩ := h12
  refine ⟨a2.trans a1, b2.trans b1, c2.trans c1, d2.trans d1,
    fun h => e2 (e1 h), fun cs0 h => ?_⟩
  obtain ⟨cs1, hcs1, hsub1⟩ := f1 cs0 h
  obtain ⟨cs2, hcs2, hsub2⟩ := f2 cs1 hcs1
  exact ⟨cs2, hcs2, fun x hx => hsub2 x (hsub1 x hx)⟩

theorem nodeGrows_insert (parent : Node) (cs : List String) (f : String)
    (h : parent.children = some cs) :
    NodeGrows parent { parent with children := some (insertName cs f) } := by
  refine ⟨rfl, rfl, rfl, rfl, fun h0 => ?_, fun cs0 h0 => ?_⟩
  · rw [h0] at h
    cases h
  · rw [h0] at h
    obtain rfl := Option.some_inj.1 h
    exact ⟨insertName cs0 f, rfl, fun x hx => (mem_insertName cs0 f x).2 (Or.inr hx)⟩

theorem addParentsRev_grows (r : List String) :
    ∀ nodes m' : Nodes, addParentsRev nodes r = some m' →
    ∀ (q : Path) (n0 : Node), lookupNode nodes q = some n0 →
    ∃ n, lookupNode m' q = some n ∧ NodeGrows n0 n := by
  induction r with
  | nil =>
    intro nodes m' h q n0 hl0
    simp only [addParentsRev, Option.some_inj] at h
    subst h
    exact ⟨n0, hl0, nodeGrows_refl n0⟩
  | cons f rest ih =>
    intro nodes m' h q n0 hl0
    simp only [addParentsRev] at h
    cases hl : lookupNode nodes rest.reverse with
    | none =>
      simp only [hl] at h
      have hq : q ≠ rest.reverse := by
        rintro rfl
        rw [hl0] at hl
        cases hl
      have hup : lookupNode (upsert nodes rest.reverse
          { filename := rest.reverse, filesize := 0, modifiedTime := 0,
            sha256sum := none, children := some [f] }) q = some n0 := by
        rw [lookup_upsert, if_neg hq]
        exact hl0
      by_cases hd : rest.reverse = []
      · rw [if_pos hd, Option.some_inj] at h
        subst h
        exact ⟨n0, hup, nodeGrows_refl n0⟩
      · rw [if_neg hd] at h
        exact ih _ _ h q n0 hup
    | some parent =>
      simp only [hl] at h
      cases hc : parent.children with
      | none => simp [hc] at h
      | some cs =>
        simp only [hc] at h
        have step : ∀ (q' : Path) (n0' : Node), lookupNode nodes q' = some n0' →
            ∃ n1, lookupNode (upsert nodes rest.reverse
              { parent with children := some (insertName cs f) }) q' = some n1 ∧
              NodeGrows n0' n1 := by
          intro q' n0' hl0'
          by_cases hq' : q' = rest.reverse
          · subst hq'
            rw [hl0', Option.some_inj] at hl
            subst hl
            exact ⟨_, by rw [lookup_upsert, if_pos rfl], nodeGrows_insert n0' cs f hc⟩
          · exact ⟨n0', by rw [lookup_upsert, if_neg hq']; exact hl0', nodeGrows_refl n0'⟩
        by_cases hd : rest.reverse = []
        · rw [if_pos hd, Option.some_inj] at h
          subst h
          exact step q n0 hl0
        · rw [if_neg hd] at h
          obtain ⟨n1, hn1, hg1⟩ := step q n0 hl0
          obtain ⟨n2, hn2, hg2⟩ := ih _ _ h q n1 hn1
          exact ⟨n2, hn2, nodeGrows_trans hg1 hg2⟩

theorem isSome_lookup_upsert (m : Nodes) (k : Path) (v : Node) (q : Path) :
    (lookupNode (upsert m k v) q).isSome = true ↔
      (q = k ∨ (lookupNode m q).isSome = true) := by
  rw [lookup_upsert]
  by_cases hq : q = k <;> simp [hq]

theorem addParentsRev_keys (r : List String) :
    ∀ nodes m' : Nodes, addParentsRev nodes r = some m' →
    ∀ q : Path, (lookupNode m' q).isSome = true ↔
      ((lookupNode nodes q).isSome = true ∨ TouchedDir q r) := by
  induction r with
  | nil =>
    intro nodes m' h q
    simp only [addParentsRev, Option.some_inj] at h
    subst h
    simp [not_touchedDir_nil q]
  | cons f rest ih =>
    intro nodes m' h q
    rw [touchedDir_cons]
    simp only [addParentsRev] at h
    cases hl : lookupNode nodes rest.reverse with
    | none =>
      simp only [hl] at h
      by_cases hd : rest.reverse = []
      · rw [if_pos hd, Option.some_inj] at h
        subst h
        rw [isSome_lookup_upsert]
        have hrest : rest = [] := List.reverse_eq_nil_iff.1 hd
        subst hrest
        simp [not_touchedDir_nil q, or_comm]
      · rw [if_neg hd] at h
        rw [ih _ _ h q, isSome_lookup_upsert]
        tauto
    | some parent =>
      simp only [hl] at h
      cases hc : parent.children with
      | none => simp [hc] at h
      | some cs =>
        simp only [hc] at h
        have hlsome : (lookupNode nodes rest.reverse).isSome = true := by
          rw [hl]; rfl
        by_cases hd : rest.reverse = []
        · rw [if_pos hd, Option.some_inj] at h
          subst h
          rw [isSome_lookup_upsert]
          have hrest : rest = [] := List.reverse_eq_nil_iff.1 hd
          subst hrest
          constructor
          · rintro (rfl | hs)
            · exact Or.inl hlsome
            · exact Or.inl hs
          · rintro (hs | (rfl | ht))
            · exact Or.inr hs
            · exact Or.inl rfl
            · exact absurd ht (not_touchedDir_nil q)
        · rw [if_neg hd] at h
          rw [ih _ _ h q, isSome_lookup_upsert]
          constructor
          · rintro ((rfl | hs) | ht)
            · exact Or.inl hlsome
            · exact Or.inl hs
            · exact Or.inr (Or.inr ht)
          · rintro (hs | (rfl | ht))
            · exact Or.inl (Or.inr hs)
            · exact Or.inl (Or.inl rfl)
            · exact Or.inr ht

theorem addParentsRev_child (r : List String) :
    ∀ nodes m' : Nodes, addParentsRev nodes r = some m' →
    ∀ (f : String) (s : List String), (f :: s) <:+ r →
    ∃ n cs, lookupNode m' s.reverse = some n ∧ n.children = some cs ∧ f ∈ cs := by
  induction r with
  | nil =>
    intro nodes m' _ f s hsuf
    have := hsuf.length_le
    simp at this
  | cons g rest ih =>
    intro nodes m' h f s hsuf
    simp only [addParentsRev] at h
    have notTouched : ¬ TouchedDir rest.reverse rest := by
      rintro ⟨_, hne⟩
      exact hne (List.reverse_reverse rest)
    rcases List.suffix_cons_iff.1 hsuf with hhead | htail
    · -- this level registers `f` under `s.reverse = rest.reverse`
      obtain ⟨rfl, rfl⟩ := List.cons_eq_cons.1 hhead
      cases hl : lookupNode nodes s.reverse with
      | none =>
        simp only [hl] at h
        by_cases hd : s.reverse = []
        · rw [if_pos hd, Option.some_inj] at h
          subst h
          exact ⟨{ filename := s.reverse, filesize := 0, modifiedTime := 0,
                   sha256sum := none, children := some [f] }, [f],
                 by rw [lookup_upsert, if_pos rfl], rfl, List.mem_singleton.2 rfl⟩
        · rw [if_neg hd] at h
          have hfr := addParentsRev_frame s _ _ h s.reverse notTouched
          exact ⟨{ filename := s.reverse, filesize := 0, modifiedTime := 0,
                   sha256sum := none, children := some [f] }, [f],
                 by rw [hfr, lookup_upsert, if_pos rfl], rfl, List.mem_singleton.2 rfl⟩
      | some parent =>
        simp only [hl] at h
        cases hc : parent.children with
        | none => simp [hc] at h
        | some cs =>
          simp only [hc] at h
          by_cases hd : s.reverse = []
          · rw [if_pos hd, Option.some_inj] at h
            subst h
            exact ⟨{ parent with children := some (insertName cs f) }, insertName cs f,
                   by rw [lookup_upsert, if_pos rfl], rfl, self_mem_insertName cs f⟩
          · rw [if_neg hd] at h
            have hfr := addParentsRev_frame s _ _ h s.reverse notTouched
            exact ⟨{ parent with children := some (insertName cs f) }, insertName cs f,
                   by rw [hfr, lookup_upsert, if_pos rfl], rfl, self_mem_insertName cs f⟩
    · -- `f :: s` sits strictly inside `rest`: handled by the recursive call
      have hrest : rest ≠ [] := by
        rintro rfl
        have := htail.length_le
        simp at this
      have hdne : rest.reverse ≠ [] := fun hx => hrest (List.reverse_eq_nil_iff.1 hx)
      cases hl : lookupNode nodes rest.reverse with
      | none =>
        simp only [hl] at h
        rw [if_neg hdne] at h
        exact ih _ _ h f s htail
      | some parent =>
        simp only [hl] at h
        cases hc : parent.children with
        | none => simp [hc] at h
        | some cs =>
          simp only [hc] at h
          rw [if_neg hdne] at h
          exact ih _ _ h f s htail

theorem addParentsRev_success (r : List String) :
    ∀ nodes : Nodes,
    (∀ (q : Path) (n : Node), TouchedDir q r → lookupNode nodes q = some n →
      n.children.isSome = true) →
    ∃ m', addParentsRev nodes r = some m' := by
  induction r with
  | nil =>
    intro nodes _
    exact ⟨nodes, rfl⟩
  | cons f rest ih =>
    intro nodes hcond
    have hdirT : TouchedDir rest.reverse (f :: rest) :=
      (touchedDir_cons rest.reverse f rest).2 (Or.inl rfl)
    simp only [addParentsRev]
    cases hl : lookupNode nodes rest.reverse with
    | none =>
      by_cases hd : rest.reverse = []
      · rw [if_pos hd]
        exact ⟨_, rfl⟩
      · rw [if_neg hd]
        apply ih
        intro q n ht hlq
        have hqne : q ≠ rest.reverse := by
          rintro rfl
          exact ht.2 (List.reverse_reverse rest)
        rw [lookup_upsert, if_neg hqne] at hlq
        exact hcond q n ((touchedDir_cons q f rest).2 (Or.inr ht)) hlq
    | some parent =>
      have hpc := hcond rest.reverse parent hdirT hl
      cases hc : parent.children with
      | none => rw [hc] at hpc; cases hpc
      | some cs =>
        simp only [hc]
        by_cases hd : rest.reverse = []
        · rw [if_pos hd]
          exact ⟨_, rfl⟩
        · rw [if_neg hd]
          apply ih
          intro q n ht hlq
          have hqne : q ≠ rest.reverse := by
            rintro rfl
            exact ht.2 (List.reverse_reverse rest)
          rw [lookup_upsert, if_neg hqne] at hlq
          exact hcond q n ((touchedDir_cons q f rest).2 (Or.inr ht)) hlq

theorem node_with_children_eq (n : Node) (cs : List String)
    (h : n.children = some cs) : ({ n with children := some cs } : Node) = n := by
  cases n
  simp only at h
  rw [Node.mk.injEq]
  exact ⟨rfl, rfl, rfl, rfl, h.symm⟩

theorem addParentsRev_noop (r : List String) :
    ∀ nodes : Nodes,
    (∀ (f : String) (s : List String), (f :: s) <:+ r →
      ∃ n cs, lookupNode nodes s.reverse = some n ∧ n.children = some cs ∧ f ∈ cs) →
    addParentsRev nodes r = some nodes := by
  induction r with
  | nil => intro nodes _; rfl
  | cons f rest ih =>
    intro nodes hreg
    obtain ⟨n, cs, hl, hc, hf⟩ := hreg f rest List.suffix_rfl
    simp only [addParentsRev, hl, hc]
    have hupd : ({ n with children := some (insertName cs f) } : Node) = n := by
      rw [insertName_of_mem cs f hf]
      exact node_with_children_eq n cs hc
    rw [hupd, upsert_noop nodes rest.reverse n hl]
    by_cases hd : rest.reverse = []
    · rw [if_pos hd]
    · rw [if_neg hd]
      apply ih
      intro f' s' hsuf
      exact hreg f' s' (hsuf.trans (List.suffix_cons f rest))

theorem mem_dirsRevList (q : Path) (r : List String) :
    q ∈ dirsRevList r ↔ TouchedDir q r := by
  induction r with
  | nil => simp [dirsRevList, not_touchedDir_nil q]
  | cons f rest ih =>
    simp only [dirsRevList, List.mem_cons, ih, touchedDir_cons]

theorem addParentsRev_keysF (r : List String) :
    ∀ nodes m' : Nodes, addParentsRev nodes r = some m' →
    keysF m' = keysF nodes ∪ (dirsRevList r).toFinset := by
  induction r with
  | nil =>
    intro nodes m' h
    simp only [addParentsRev, Option.some_inj] at h
    subst h
    simp [dirsRevList]
  | cons f rest ih =>
    intro nodes m' h
    simp only [addParentsRev] at h
    simp only [dirsRevList, List.toFinset_cons]
    cases hl : lookupNode nodes rest.reverse with
    | none =>
      simp only [hl] at h
      by_cases hd : rest.reverse = []
      · rw [if_pos hd, Option.some_inj] at h
        subst h
        rw [keysF_upsert]
        have hrest : rest = [] := List.reverse_eq_nil_iff.1 hd
        subst hrest
        ext x
        simp only [dirsRevList, List.toFinset_nil, Finset.mem_insert,
          Finset.mem_union, List.toFinset_cons, List.mem_toFinset,
          List.not_mem_nil, Finset.not_mem_empty, or_false]
        tauto
      · rw [if_neg hd] at h
        rw [ih _ _ h, keysF_upsert]
        ext x
        simp only [Finset.mem_union, Finset.mem_insert, List.mem_toFinset]
        tauto
    | some parent =>
      simp only [hl] at h
      cases hc : parent.children with
      | none => simp [hc] at h
      | some cs =>
        simp only [hc] at h
        have hmem : rest.reverse ∈ keysF nodes := by
          rw [mem_keysF, hl]
          rfl
        by_cases hd : rest.reverse = []
        · rw [if_pos hd, Option.some_inj] at h
          subst h
          rw [keysF_upsert]
          have hrest : rest = [] := List.reverse_eq_nil_iff.1 hd
          subst hrest
          ext x
          simp only [dirsRevList, List.toFinset_nil, Finset.mem_insert,
            Finset.mem_union, List.toFinset_cons, List.mem_toFinset,
            List.not_mem_nil, Finset.not_mem_empty, or_false]
          tauto
        · rw [if_neg hd] at h
          rw [ih _ _ h, keysF_upsert]
          ext x
          simp only [Finset.mem_union, Finset.mem_insert, List.mem_toFinset]
          tauto

theorem addParentsRev_nodup (r : List String) :
    ∀ nodes m' : Nodes, addParentsRev nodes r = some m' →
    (nodes.map Prod.fst).Nodup → (m'.map Prod.fst).Nodup := by
  induction r with
  | nil =>
    intro nodes m' h hnd
    simp only [addParentsRev, Option.some_inj] at h
    subst h
    exact hnd
  | cons f rest ih =>
    intro nodes m' h hnd
    simp only [addParentsRev] at h
    cases hl : lookupNode nodes rest.reverse with
    | none =>
      simp only [hl] at h
      by_cases hd : rest.reverse = []
      · rw [if_pos hd, Option.some_inj] at h
        subst h
        exact nodup_upsert _ _ _ hnd
      · rw [if_neg hd] at h
        exact ih _ _ h (nodup_upsert _ _ _ hnd)
    | some parent =>
      simp only [hl] at h
      cases hc : parent.children with
      | none => simp [hc] at h
      | some cs =>
        simp only [hc] at h
        by_cases hd : rest.reverse = []
        · rw [if_pos hd, Option.some_inj] at h
          subst h
          exact nodup_upsert _ _ _ hnd
        · rw [if_neg hd] at h
          exact ih _ _ h (nodup_upsert _ _ _ hnd)

theorem addParentsRev_hasChild_mono (r : List String) (nodes m' : Nodes)
    (h : addParentsRev nodes r = some m') (q : Path) (c : String)
    (hc : hasChildB nodes q c = true) : hasChildB m' q c = true := by
  unfold hasChildB at hc ⊢
  cases hl : lookupNode nodes q with
  | none => simp [hl] at hc
  | some n0 =>
    simp only [hl] at hc
    cases hcs : n0.children with
    | none => simp [hcs] at hc
    | some cs0 =>
      simp only [hcs, decide_eq_true_eq] at hc
      obtain ⟨n, hn, hg⟩ := addParentsRev_grows r nodes m' h q n0 hl
      obtain ⟨cs, hcs', hsub⟩ := hg.2.2.2.2.2 cs0 hcs
      simp only [hn, hcs', decide_eq_true_eq]
      exact hsub c hc

/-! ## Properties of the per-record install step -/

theorem tryInstall_cases (m : Nodes) (h : Hash) (f : ShadeFile) (m' : Nodes)
    (b : Bool) (ht : tryInstall m h f = some (m', b)) :
    (b = false ∧ m' = m ∧ ∃ ex, lookupNode m f.filename = some ex ∧
      f.modifiedTime < ex.modifiedTime) ∨
    (b = true ∧ addParents f.filename (upsert m f.filename (nodeOf f h)) = some m') := by
  unfold tryInstall at ht
  cases hl : lookupNode m (nodeOf f h).filename with
  | none =>
    simp only [hl] at ht
    cases hap : addParents (nodeOf f h).filename (upsert m (nodeOf f h).filename (nodeOf f h)) with
    | none => rw [hap] at ht; cases ht
    | some nodes' =>
      rw [hap] at ht
      injection ht with ht
      injection ht with h1 h2
      subst h1
      subst h2
      exact Or.inr ⟨rfl, hap⟩
  | some existing =>
    simp only [hl] at ht
    by_cases hlt : (nodeOf f h).modifiedTime < existing.modifiedTime
    · rw [if_pos hlt] at ht
      injection ht with ht
      injection ht with h1 h2
      subst h1
      subst h2
      exact Or.inl ⟨rfl, rfl, existing, hl, hlt⟩
    · rw [if_neg hlt] at ht
      cases hap : addParents (nodeOf f h).filename (upsert m (nodeOf f h).filename (nodeOf f h)) with
      | none => rw [hap] at ht; cases ht
      | some nodes' =>
        rw [hap] at ht
        injection ht with ht
        injection ht with h1 h2
        subst h1
        subst h2
        exact Or.inr ⟨rfl, hap⟩

theorem tryInstall_skip (m : Nodes) (h : Hash) (f : ShadeFile) (ex : Node)
    (hl : lookupNode m f.filename = some ex)
    (hlt : f.modifiedTime < ex.modifiedTime) :
    tryInstall m h f = some (m, false) := by
  unfold tryInstall
  have hl' : lookupNode m (nodeOf f h).filename = some ex := hl
  simp only [hl']
  have hlt' : (nodeOf f h).modifiedTime < ex.modifiedTime := hlt
  rw [if_pos hlt']

theorem tryInstall_no_skip (m : Nodes) (h : Hash) (f : ShadeFile) (m' : Nodes)
    (b : Bool) (ht : tryInstall m h f = some (m', b))
    (hnew : ∀ ex, lookupNode m f.filename = some ex →
      ¬ f.modifiedTime < ex.modifiedTime) :
    b = true ∧ addParents f.filename (upsert m f.filename (nodeOf f h)) = some m' := by
  rcases tryInstall_cases m h f m' b ht with ⟨_, _, ex, hl, hlt⟩ | hok
  · exact absurd hlt (hnew ex hl)
  · exact hok

/-- `addParents p` never rewrites the map entry at `p` itself. -/
theorem addParents_self_frame (p : Path) (m m' : Nodes)
    (h : addParents p m = some m') : lookupNode m' p = lookupNode m p := by
  have : ¬ TouchedDir p p.reverse := fun ht => ht.2 rfl
  exact addParentsRev_frame p.reverse m m' h p this

theorem tryInstall_installed_lookup (m : Nodes) (h : Hash) (f : ShadeFile)
    (m' : Nodes) (ht : tryInstall m h f = some (m', true)) :
    lookupNode m' f.filename = some (nodeOf f h) := by
  rcases tryInstall_cases m h f m' true ht with ⟨hb, _⟩ | ⟨_, hap⟩
  · cases hb
  · rw [addParents_self_frame _ _ _ hap, lookup_upsert, if_pos rfl]

theorem tryInstall_keys_mono (m : Nodes) (h : Hash) (f : ShadeFile)
    (m' : Nodes) (b : Bool) (ht : tryInstall m h f = some (m', b)) (q : Path)
    (hq : (lookupNode m q).isSome = true) : (lookupNode m' q).isSome = true := by
  rcases tryInstall_cases m h f m' b ht with ⟨_, rfl, _⟩ | ⟨_, hap⟩
  · exact hq
  · rw [addParentsRev_keys f.filename.reverse _ _ hap q]
    rw [isSome_lookup_upsert]
    exact Or.inl (Or.inr hq)

theorem addParentsRev_length_mono (r : List String) :
    ∀ nodes m' : Nodes, addParentsRev nodes r = some m' →
    nodes.length ≤ m'.length := by
  induction r with
  | nil =>
    intro nodes m' h
    simp only [addParentsRev, Option.some_inj] at h
    subst h
    exact Nat.le_refl _
  | cons f rest ih =>
    intro nodes m' h
    simp only [addParentsRev] at h
    cases hl : lookupNode nodes rest.reverse with
    | none =>
      simp only [hl] at h
      by_cases hd : rest.reverse = []
      · rw [if_pos hd, Option.some_inj] at h
        subst h
        exact length_le_upsert _ _ _
      · rw [if_neg hd] at h
        exact (length_le_upsert _ _ _).trans (ih _ _ h)
    | some parent =>
      simp only [hl] at h
      cases hc : parent.children with
      | none => simp [hc] at h
      | some cs =>
        simp only [hc] at h
        by_cases hd : rest.reverse = []
        · rw [if_pos hd, Option.some_inj] at h
          subst h
          exact length_le_upsert _ _ _
        · rw [if_neg hd] at h
          exact (length_le_upsert _ _ _).trans (ih _ _ h)

theorem tryInstall_length_mono (m : Nodes) (h : Hash) (f : ShadeFile)
    (m' : Nodes) (b : Bool) (ht : tryInstall m h f = some (m', b)) :
    m.length ≤ m'.length := by
  rcases tryInstall_cases m h f m' b ht with ⟨_, rfl, _⟩ | ⟨_, hap⟩
  · exact Nat.le_refl _
  · exact (length_le_upsert _ _ _).trans (addParentsRev_length_mono _ _ _ hap)

/-! ## Properties of the refresh loop -/

theorem refreshLoop_ne_listError (fj : Blob → Option ShadeFile)
    (gc : Hash → Option Blob) (L : List Hash) :
    ∀ (known : List Hash) (m : Nodes),
    refreshLoop fj gc L known m ≠ .listError := by
  induction L with
  | nil =>
    intro known m h
    simp only [refreshLoop] at h
    cases h
  | cons sha rest ih =>
    intro known m h
    simp only [refreshLoop] at h
    by_cases hk : sha ∈ known
    · rw [if_pos hk] at h
      exact ih known m h
    · rw [if_neg hk] at h
      cases hgc : gc sha with
      | none =>
        simp only [hgc] at h
        exact ih known m h
      | some blob =>
        simp only [hgc] at h
        cases hfj : fj blob with
        | none =>
          simp only [hfj] at h
          exact ih known m h
        | some file =>
          simp only [hfj] at h
          cases hti : tryInstall m sha file with
          | none => simp only [hti] at h; cases h
          | some pr =>
            obtain ⟨m', b⟩ := pr
            simp only [hti] at h
            exact ih _ _ h

theorem refreshLoop_filter_decodable (fj : Blob → Option ShadeFile)
    (gc : Hash → Option Blob) (L : List Hash) :
    ∀ (known : List Hash) (m : Nodes),
    refreshLoop fj gc L known m =
      refreshLoop fj gc (L.filter fun sha => ((gc sha).bind fj).isSome) known m := by
  induction L with
  | nil => intro known m; rfl
  | cons sha rest ih =>
    intro known m
    by_cases hdec : ((gc sha).bind fj).isSome = true
    · rw [List.filter_cons_of_pos (by simpa using hdec)]
      cases hgc : gc sha with
      | none => rw [hgc] at hdec; cases hdec
      | some blob =>
        cases hfj : fj blob with
        | none =>
          rw [hgc] at hdec
          simp only [Option.some_bind, hfj] at hdec
          cases hdec
        | some file =>
          simp only [refreshLoop, hgc, hfj]
          by_cases hk : sha ∈ known
          · rw [if_pos hk, if_pos hk]
            exact ih known m
          · rw [if_neg hk, if_neg hk]
            cases hti : tryInstall m sha file with
            | none => rfl
            | some pr =>
              obtain ⟨m', b⟩ := pr
              exact ih _ _
    · rw [List.filter_cons_of_neg (by simpa using hdec)]
      simp only [refreshLoop]
      by_cases hk : sha ∈ known
      · rw [if_pos hk]
        exact ih known m
      · rw [if_neg hk]
        cases hgc : gc sha with
        | none =>
          simp only [hgc]
          exact ih known m
        | some blob =>
          simp only [hgc]
          cases hfj : fj blob with
          | none =>
            simp only [hfj]
            exact ih known m
          | some file =>
            exfalso
            apply hdec
            rw [hgc]
            simp [hfj]

theorem refreshLoop_known_mono (fj : Blob → Option ShadeFile)
    (gc : Hash → Option Blob) (L : List Hash) :
    ∀ (known : List Hash) (m : Nodes) (t' : Tree) (known' : List Hash),
    refreshLoop fj gc L known m = .ok t' known' →
    ∀ x, x ∈ known → x ∈ known' := by
  induction L with
  | nil =>
    intro known m t' known' h x hx
    simp only [refreshLoop, RefreshResult.ok.injEq] at h
    rw [← h.2]
    exact hx
  | cons sha rest ih =>
    intro known m t' known' h x hx
    simp only [refreshLoop] at h
    by_cases hk : sha ∈ known
    · rw [if_pos hk] at h
      exact ih known m t' known' h x hx
    · rw [if_neg hk] at h
      cases hgc : gc sha with
      | none =>
        simp only [hgc] at h
        exact ih known m t' known' h x hx
      | some blob =>
        simp only [hgc] at h
        cases hfj : fj blob with
        | none =>
          simp only [hfj] at h
          exact ih known m t' known' h x hx
        | some file =>
          simp only [hfj] at h
          cases hti : tryInstall m sha file with
          | none => simp only [hti] at h; cases h
          | some pr =>
            obtain ⟨m2, b⟩ := pr
            simp only [hti] at h
            cases b with
            | false => exact ih _ _ _ _ h x hx
            | true => exact ih _ _ _ _ h x (List.mem_cons_of_mem sha hx)

theorem refreshLoop_mono (fj : Blob → Option ShadeFile)
    (gc : Hash → Option Blob) (L : List Hash) :
    ∀ (known : List Hash) (m : Nodes) (t' : Tree) (known' : List Hash),
    refreshLoop fj gc L known m = .ok t' known' →
    (∀ q, (lookupNode m q).isSome = true → (lookupNode t'.nodes q).isSome = true) ∧
    m.length ≤ t'.nodes.length := by
  induction L with
  | nil =>
    intro known m t' known' h
    simp only [refreshLoop, RefreshResult.ok.injEq] at h
    rw [← h.1]
    exact ⟨fun q hq => hq, Nat.le_refl _⟩
  | cons sha rest ih =>
    intro known m t' known' h
    simp only [refreshLoop] at h
    by_cases hk : sha ∈ known
    · rw [if_pos hk] at h
      exact ih known m t' known' h
    · rw [if_neg hk] at h
      cases hgc : gc sha with
      | none =>
        simp only [hgc] at h
        exact ih known m t' known' h
      | some blob =>
        simp only [hgc] at h
        cases hfj : fj blob with
        | none =>
          simp only [hfj] at h
          exact ih known m t' known' h
        | some file =>
          simp only [hfj] at h
          cases hti : tryInstall m sha file with
          | none => simp only [hti] at h; cases h
          | some pr =>
            obtain ⟨m2, b⟩ := pr
            simp only [hti] at h
            obtain ⟨hkeys, hlen⟩ := ih _ _ _ _ h
            refine ⟨fun q hq => hkeys q (tryInstall_keys_mono m sha file m2 b hti q hq), ?_⟩
            exact (tryInstall_length_mono m sha file m2 b hti).trans hlen

theorem refreshLoop_sha (fj : Blob → Option ShadeFile)
    (gc : Hash → Option Blob) (L : List Hash) :
    ∀ (known : List Hash) (m : Nodes) (t' : Tree) (known' : List Hash),
    refreshLoop fj gc L known m = .ok t' known' →
    ∀ p : Path,
      ((lookupNode t'.nodes p).bind Node.sha256sum = none ↔
        ((lookupNode m p).bind Node.sha256sum = none ∧
          ¬∃ h' f', h' ∈ known' ∧ h' ∉ known ∧ decodeF fj gc h' = some f' ∧
            f'.filename = p)) := by
  induction L with
  | nil =>
    intro known m t' known' h p
    simp only [refreshLoop, RefreshResult.ok.injEq] at h
    obtain ⟨h1, h2⟩ := h
    subst h2
    rw [← h1]
    constructor
    · intro hs
      refine ⟨hs, ?_⟩
      rintro ⟨h', f', hmem, hnmem, _, _⟩
      exact hnmem hmem
    · exact fun hs => hs.1
  | cons sha rest ih =>
    intro known m t' known' h p
    simp only [refreshLoop] at h
    by_cases hk : sha ∈ known
    · rw [if_pos hk] at h
      exact ih known m t' known' h p
    · rw [if_neg hk] at h
      cases hgc : gc sha with
      | none =>
        simp only [hgc] at h
        exact ih known m t' known' h p
      | some blob =>
        simp only [hgc] at h
        cases hfj : fj blob with
        | none =>
          simp only [hfj] at h
          exact ih known m t' known' h p
        | some file =>
          simp only [hfj] at h
          have hdec : decodeF fj gc sha = some file := by
            unfold decodeF
            rw [hgc, Option.some_bind, hfj]
          cases hti : tryInstall m sha file with
          | none => simp only [hti] at h; cases h
          | some pr =>
            obtain ⟨m2, b⟩ := pr
            simp only [hti] at h
            cases b with
            | false =>
              obtain ⟨_, rfl, _⟩ | ⟨hb, _⟩ := tryInstall_cases m sha file m2 false hti
              · exact ih _ _ _ _ h p
              · cases hb
            | true =>
              have hmem : sha ∈ known' :=
                refreshLoop_known_mono fj gc rest _ _ _ _ h sha (List.mem_cons_self sha known)
              rcases tryInstall_cases m sha file m2 true hti with ⟨hb, _, _⟩ | ⟨_, hap⟩
              · cases hb
              have hsha2 : ∀ q : Path,
                  (lookupNode m2 q).bind Node.sha256sum =
                    (lookupNode (upsert m file.filename (nodeOf file sha)) q).bind
                      Node.sha256sum :=
                addParentsRev_sha file.filename.reverse _ _ hap
              rw [ih _ _ _ _ h p]
              by_cases hp : p = file.filename
              · subst hp
                have hleft : (lookupNode m2 file.filename).bind Node.sha256sum = some sha := by
                  rw [hsha2 file.filename, lookup_upsert, if_pos rfl]
                  rfl
                rw [hleft]
                constructor
                · intro hcontra
                  cases hcontra.1
                · rintro ⟨_, hne⟩
                  exact absurd ⟨sha, file, hmem, hk, hdec, rfl⟩ hne
              · have hside : (lookupNode m2 p).bind Node.sha256sum =
                    (lookupNode m p).bind Node.sha256sum := by
                  rw [hsha2 p, lookup_upsert, if_neg hp]
                rw [hside]
                constructor
                · rintro ⟨hnone, hne⟩
                  refine ⟨hnone, ?_⟩
                  rintro ⟨h', f', hmem', hnmem', hdec', hfn'⟩
                  by_cases hhs : h' = sha
                  · subst hhs
                    rw [hdec, Option.some_inj] at hdec'
                    subst hdec'
                    exact hp hfn'.symm
                  · refine hne ⟨h', f', hmem', ?_, hdec', hfn'⟩
                    intro hmem2
                    rcases List.mem_cons.1 hmem2 with h | h
                    · exact hhs h
                    · exact hnmem' h
                · rintro ⟨hnone, hne⟩
                  refine ⟨hnone, ?_⟩
                  rintro ⟨h', f', hmem', hnmem', hdec', hfn'⟩
                  exact hne ⟨h', f', hmem',
                    fun hmem2 => hnmem' (List.mem_cons_of_mem sha hmem2), hdec', hfn'⟩

/-! ## Claim C1: last-writer-wins tie-breaking -/

/-- C1, counterexample.  The claim says a record with a modified time
*equal* to the existing Node's is discarded.  In the code the skip fires
only when the existing node is *strictly* newer
(`existing.ModifiedTime.After(node.ModifiedTime)`), so with two
equal-time records for `"a"` (hashes `[1]` then `[2]`) the first pass
sets the hash to `[1]` and processing the second record *replaces* it
with `[2]` instead of leaving it unchanged. -/
theorem C1_counterexample :
    shaAt (refresh (fjTable tblEqualTimes) (idBackend [[1]]) initialTree) ["a"] =
      some (some [1]) ∧
    shaAt (refresh (fjTable tblEqualTimes) (idBackend [[1], [2]]) initialTree) ["a"] =
      some (some [2]) := by
  decide

/-- C1, amended.  A later refresh step discards an incoming record for an
occupied path only when the existing Node's modified time is *strictly
later*; when the incoming record's modified time is equal or later, the
record is installed and the Node's content hash becomes the incoming
record's hash. -/
theorem C1_amended (m : Nodes) (h : Hash) (f : ShadeFile) (ex : Node)
    (m' : Nodes) (b : Bool) (hne : f.filename ≠ [])
    (hl : lookupNode m f.filename = some ex) :
    (f.modifiedTime < ex.modifiedTime → tryInstall m h f = some (m, false)) ∧
    (ex.modifiedTime ≤ f.modifiedTime → tryInstall m h f = some (m', b) →
      b = true ∧ lookupNode m' f.filename = some (nodeOf f h)) := by
  constructor
  · exact fun hlt => tryInstall_skip m h f ex hl hlt
  · intro hle ht
    have hnew : ∀ ex', lookupNode m f.filename = some ex' →
        ¬ f.modifiedTime < ex'.modifiedTime := by
      intro ex' hl'
      rw [hl, Option.some_inj] at hl'
      subst hl'
      omega
    obtain ⟨hb, _⟩ := tryInstall_no_skip m h f m' b ht hnew
    subst hb
    exact ⟨rfl, tryInstall_installed_lookup m h f m' ht⟩

/-- C1, witness: the amended statement evaluated at an equal-time record
for path `"a"` over a one-node map. -/
theorem C1_amended_witness :
    ((⟨["a"], 0, 5⟩ : ShadeFile).filename ≠ [] ∧
     lookupNode [(["a"], nodeOf ⟨["a"], 0, 5⟩ [1])]
       (⟨["a"], 0, 5⟩ : ShadeFile).filename = some (nodeOf ⟨["a"], 0, 5⟩ [1])) ∧
    (((⟨["a"], 0, 5⟩ : ShadeFile).modifiedTime <
        (nodeOf ⟨["a"], 0, 5⟩ [1]).modifiedTime →
      tryInstall [(["a"], nodeOf ⟨["a"], 0, 5⟩ [1])] [2] ⟨["a"], 0, 5⟩ =
        some ([(["a"], nodeOf ⟨["a"], 0, 5⟩ [1])], false)) ∧
     ((nodeOf ⟨["a"], 0, 5⟩ [1]).modifiedTime ≤
        (⟨["a"], 0, 5⟩ : ShadeFile).modifiedTime →
      tryInstall [(["a"], nodeOf ⟨["a"], 0, 5⟩ [1])] [2] ⟨["a"], 0, 5⟩ =
        some ([(["a"], nodeOf ⟨["a"], 0, 5⟩ [2]),
               ([], { filename := [], filesize := 0, modifiedTime := 0,
                      sha256sum := none, children := some ["a"] })], true) →
      true = true ∧
        lookupNode [(["a"], nodeOf ⟨["a"], 0, 5⟩ [2]),
               ([], { filename := [], filesize := 0, modifiedTime := 0,
                      sha256sum := none, children := some ["a"] })]
          (⟨["a"], 0, 5⟩ : ShadeFile).filename =
          some (nodeOf ⟨["a"], 0, 5⟩ [2]))) :=
  ⟨⟨by decide, by decide⟩,
   C1_amended [(["a"], nodeOf ⟨["a"], 0, 5⟩ [1])] [2] ⟨["a"], 0, 5⟩
     (nodeOf ⟨["a"], 0, 5⟩ [1])
     [(["a"], nodeOf ⟨["a"], 0, 5⟩ [2]),
      ([], { filename := [], filesize := 0, modifiedTime := 0,
             sha256sum := none, children := some ["a"] })] true
     (by decide) (by decide)⟩

/-! ## Claim C2: order-independence of a refresh pass -/

/-- C2, counterexample.  For two records at the same path with *equal*
modified times and different hashes, the processing order decides the
final hash: `[1]` then `[2]` leaves hash `[2]`; `[2]` then `[1]` leaves
hash `[1]`.  The claim that the processing order never affects the final
state of a path is therefore false. -/
theorem C2_counterexample :
    shaAt (refresh (fjTable tblEqualTimes) (idBackend [[1], [2]]) initialTree) ["a"] =
      some (some [2]) ∧
    shaAt (refresh (fjTable tblEqualTimes) (idBackend [[2], [1]]) initialTree) ["a"] =
      some (some [1]) := by
  decide

/-- C2, amended.  For two records at the same non-root path with
`T1 < T2`, starting from a map whose node at that path (if any) is not
newer than `T2`, installing the two records in either order (when neither
step panics) leaves the node at that path equal to the `T2` record's node
— with hash `h2` — and in the `T2`-first order the `T1` record is
discarded outright; order-independence holds for strictly ordered times
but not (per the counterexample) for equal times. -/
theorem C2_amended (m : Nodes) (h1 h2 : Hash) (f1 f2 : ShadeFile)
    (m1 m12 m2n m21 : Nodes) (b1 b12 b2 b21 : Bool)
    (hne : f2.filename ≠ [])
    (hpath : f1.filename = f2.filename)
    (htlt : f1.modifiedTime < f2.modifiedTime)
    (hex : ∀ ex, lookupNode m f2.filename = some ex →
      ex.modifiedTime ≤ f2.modifiedTime)
    (h1i : tryInstall m h1 f1 = some (m1, b1))
    (h2i : tryInstall m1 h2 f2 = some (m12, b12))
    (h2i' : tryInstall m h2 f2 = some (m2n, b2))
    (h1i' : tryInstall m2n h1 f1 = some (m21, b21)) :
    lookupNode m12 f2.filename = some (nodeOf f2 h2) ∧
    lookupNode m21 f2.filename = some (nodeOf f2 h2) ∧ m21 = m2n := by
  have hnoskip2 : ∀ ex, lookupNode m f2.filename = some ex →
      ¬ f2.modifiedTime < ex.modifiedTime := by
    intro ex hlx
    have := hex ex hlx
    omega
  -- order T2 first: the T2 record installs, then the T1 record is stale
  obtain ⟨hb2, _⟩ := tryInstall_no_skip m h2 f2 m2n b2 h2i' hnoskip2
  subst hb2
  have hl2 : lookupNode m2n f2.filename = some (nodeOf f2 h2) :=
    tryInstall_installed_lookup m h2 f2 m2n h2i'
  have hskip : tryInstall m2n h1 f1 = some (m2n, false) := by
    apply tryInstall_skip m2n h1 f1 (nodeOf f2 h2)
    · rw [hpath]
      exact hl2
    · exact htlt
  rw [hskip, Option.some_inj] at h1i'
  have hm21 : m21 = m2n := by
    injection h1i' with ha _
    exact ha.symm
  subst hm21
  -- order T1 first
  rcases tryInstall_cases m h1 f1 m1 b1 h1i with ⟨_, rfl, _⟩ | ⟨hb1, _⟩
  · -- the T1 record was already stale: T2 installs over the unchanged map
    obtain ⟨hb12, _⟩ := tryInstall_no_skip m1 h2 f2 m12 b12 h2i hnoskip2
    subst hb12
    exact ⟨tryInstall_installed_lookup m1 h2 f2 m12 h2i, hl2, rfl⟩
  · -- the T1 record installed; the T2 record then overwrites it
    subst hb1
    have hl1 : lookupNode m1 f1.filename = some (nodeOf f1 h1) :=
      tryInstall_installed_lookup m h1 f1 m1 h1i
    have hnoskip12 : ∀ ex, lookupNode m1 f2.filename = some ex →
        ¬ f2.modifiedTime < ex.modifiedTime := by
      intro ex hlx
      rw [← hpath] at hlx
      rw [hl1, Option.some_inj] at hlx
      subst hlx
      show ¬ f2.modifiedTime < (nodeOf f1 h1).modifiedTime
      show ¬ f2.modifiedTime < f1.modifiedTime
      omega
    obtain ⟨hb12, _⟩ := tryInstall_no_skip m1 h2 f2 m12 b12 h2i hnoskip12
    subst hb12
    exact ⟨tryInstall_installed_lookup m1 h2 f2 m12 h2i, hl2, rfl⟩

/-- C2, witness: both installation orders for records `(path "a", T1 = 1,
hash [1])` and `(path "a", T2 = 2, hash [2])` starting from the freshly
constructed tree, evaluated concretely. -/
theorem C2_amended_witness :
    ((⟨["a"], 0, 2⟩ : ShadeFile).filename ≠ [] ∧
     (⟨["a"], 0, 1⟩ : ShadeFile).filename = (⟨["a"], 0, 2⟩ : ShadeFile).filename ∧
     (⟨["a"], 0, 1⟩ : ShadeFile).modifiedTime < (⟨["a"], 0, 2⟩ : ShadeFile).modifiedTime ∧
     tryInstall initialTree.nodes [1] ⟨["a"], 0, 1⟩ =
       some ([([], { filename := [], filesize := 0, modifiedTime := 0,
                     sha256sum := none, children := some ["a"] }),
              (["a"], nodeOf ⟨["a"], 0, 1⟩ [1])], true) ∧
     tryInstall [([], { filename := [], filesize := 0, modifiedTime := 0,
                        sha256sum := none, children := some ["a"] }),
                 (["a"], nodeOf ⟨["a"], 0, 1⟩ [1])] [2] ⟨["a"], 0, 2⟩ =
       some ([([], { filename := [], filesize := 0, modifiedTime := 0,
                     sha256sum := none, children := some ["a"] }),
              (["a"], nodeOf ⟨["a"], 0, 2⟩ [2])], true) ∧
     tryInstall initialTree.nodes [2] ⟨["a"], 0, 2⟩ =
       some ([([], { filename := [], filesize := 0, modifiedTime := 0,
                     sha256sum := none, children := some ["a"] }),
              (["a"], nodeOf ⟨["a"], 0, 2⟩ [2])], true) ∧
     tryInstall [([], { filename := [], filesize := 0, modifiedTime := 0,
                        sha256sum := none, children := some ["a"] }),
                 (["a"], nodeOf ⟨["a"], 0, 2⟩ [2])] [1] ⟨["a"], 0, 1⟩ =
       some ([([], { filename := [], filesize := 0, modifiedTime := 0,
                     sha256sum := none, children := some ["a"] }),
              (["a"], nodeOf ⟨["a"], 0, 2⟩ [2])], false)) ∧
    (lookupNode [([], { filename := [], filesize := 0, modifiedTime := 0,
                        sha256sum := none, children := some ["a"] }),
                 (["a"], nodeOf ⟨["a"], 0, 2⟩ [2])]
        (⟨["a"], 0, 2⟩ : ShadeFile).filename = some (nodeOf ⟨["a"], 0, 2⟩ [2]) ∧
     lookupNode [([], { filename := [], filesize := 0, modifiedTime := 0,
                        sha256sum := none, children := some ["a"] }),
                 (["a"], nodeOf ⟨["a"], 0, 2⟩ [2])]
        (⟨["a"], 0, 2⟩ : ShadeFile).filename = some (nodeOf ⟨["a"], 0, 2⟩ [2]) ∧
     ([([], { filename := [], filesize := 0, modifiedTime := 0,
              sha256sum := none, children := some ["a"] }),
       (["a"], nodeOf ⟨["a"], 0, 2⟩ [2])] : Nodes) =
       [([], { filename := [], filesize := 0, modifiedTime := 0,
               sha256sum := none, children := some ["a"] }),
        (["a"], nodeOf ⟨["a"], 0, 2⟩ [2])]) :=
  ⟨⟨by decide, by decide, by decide, by decide, by decide, by decide, by decide⟩,
   C2_amended initialTree.nodes [1] [2] ⟨["a"], 0, 1⟩ ⟨["a"], 0, 2⟩
     [([], { filename := [], filesize := 0, modifiedTime := 0,
             sha256sum := none, children := some ["a"] }),
      (["a"], nodeOf ⟨["a"], 0, 1⟩ [1])]
     [([], { filename := [], filesize := 0, modifiedTime := 0,
             sha256sum := none, children := some ["a"] }),
      (["a"], nodeOf ⟨["a"], 0, 2⟩ [2])]
     [([], { filename := [], filesize := 0, modifiedTime := 0,
             sha256sum := none, children := some ["a"] }),
      (["a"], nodeOf ⟨["a"], 0, 2⟩ [2])]
     [([], { filename := [], filesize := 0, modifiedTime := 0,
             sha256sum := none, children := some ["a"] }),
      (["a"], nodeOf ⟨["a"], 0, 2⟩ [2])]
     true true true false
     (by decide) (by decide) (by decide)
     (by intro ex hlx; exact Option.noConfusion hlx)
     (by decide) (by decide) (by decide) (by decide)⟩

/-! ## Claim C3: error handling of `Refresh` and `NewTree` -/

/-- C3.  A refresh pass returns the error outcome exactly when the
backend enumeration (`ListFiles`) fails, and `NewTree` fails the same
way; when enumeration succeeds, hashes whose fetch or parse fails are
skipped and change nothing — the loop computes the same result as over
the decodable hashes alone, so the remaining records are installed and no
error is returned for per-record failures. -/
theorem C3_error_handling :
    (∀ (fj : Blob → Option ShadeFile) (b : Backend) (t : Tree),
      refresh fj b t = .listError ↔ b.listFiles = none) ∧
    (∀ (fj : Blob → Option ShadeFile) (b : Backend),
      newTree fj b = .listError ↔ b.listFiles = none) ∧
    (∀ (fj : Blob → Option ShadeFile) (gc : Hash → Option Blob) (L : List Hash)
       (known : List Hash) (m : Nodes),
      refreshLoop fj gc L known m =
        refreshLoop fj gc (L.filter fun sha => (decodeF fj gc sha).isSome) known m) := by
  have herr : ∀ (fj : Blob → Option ShadeFile) (b : Backend) (t : Tree),
      refresh fj b t = .listError ↔ b.listFiles = none := by
    intro fj b t
    unfold refresh
    cases hlf : b.listFiles with
    | none => simp
    | some L =>
      simp only []
      constructor
      · intro h
        exact absurd h (refreshLoop_ne_listError fj b.getChunk L [] t.nodes)
      · intro h
        cases h
  exact ⟨herr, fun fj b => herr fj b initialTree,
    fun fj gc L known m => refreshLoop_filter_decodable fj gc L known m⟩

/-! ## Claim C5: refresh never crashes -/

/-- C5.  The claim (and spec §7) says a refresh pass never crashes on any
input record.  The code does crash: with a record for `"a"` processed
before a record for `"a/b"`, `addParents "a/b"` executes
`parent.Children["b"] = true` on the file node at `"a"`, whose `Children`
map is `nil` — an assignment to a nil map, a Go runtime panic.  This
theorem evaluates the model at that failing input. -/
theorem C5_panic_on_collision :
    refresh (fjTable tblPanic) (idBackend [[1], [2]]) initialTree = .panicked := by
  decide

/-! ## Claim C8: nodes are never deleted -/

/-- C8.  The root is present from construction, and any sequence of
refresh passes only ever adds map entries: every present path stays
present and the node count is monotonically non-decreasing. -/
theorem C8_no_deletion :
    (lookupNode initialTree.nodes []).isSome = true ∧
    ∀ (fj : Blob → Option ShadeFile) (bs : List Backend) (t t' : Tree),
      runPasses fj bs t = some t' →
      (∀ p, (lookupNode t.nodes p).isSome = true →
        (lookupNode t'.nodes p).isSome = true) ∧
      t.NumNodes ≤ t'.NumNodes := by
  constructor
  · rfl
  · intro fj bs
    induction bs with
    | nil =>
      intro t t' h
      rw [runPasses, Option.some_inj] at h
      subst h
      exact ⟨fun p hp => hp, Nat.le_refl _⟩
    | cons b rest ih =>
      intro t t' h
      rw [runPasses] at h
      cases href : refresh fj b t with
      | listError =>
        rw [href] at h
        exact ih t t' h
      | panicked =>
        rw [href] at h
        cases h
      | ok t2 known2 =>
        rw [href] at h
        unfold refresh at href
        cases hlf : b.listFiles with
        | none => rw [hlf] at href; cases href
        | some L =>
          rw [hlf] at href
          obtain ⟨hkeys, hlen⟩ := refreshLoop_mono fj b.getChunk L [] t.nodes t2 known2 href
          obtain ⟨hkeys2, hlen2⟩ := ih t2 t' h
          exact ⟨fun p hp => hkeys2 p (hkeys p hp), hlen.trans hlen2⟩

/-- C8, witness: one refresh pass over two records, evaluated concretely;
the root stays present and the node count grows from 1 to 3. -/
theorem C8_no_deletion_witness :
    runPasses (fjTable tblCollide) [idBackend [[1], [2]]] initialTree =
      some ⟨[([], { filename := [], filesize := 0, modifiedTime := 0,
                    sha256sum := none, children := some ["a"] }),
             (["a", "b"], nodeOf ⟨["a", "b"], 0, 1⟩ [1]),
             (["a"], nodeOf ⟨["a"], 0, 2⟩ [2])]⟩ ∧
    (lookupNode [([], { filename := [], filesize := 0, modifiedTime := 0,
                        sha256sum := none, children := some ["a"] }),
                 (["a", "b"], nodeOf ⟨["a", "b"], 0, 1⟩ [1]),
                 (["a"], nodeOf ⟨["a"], 0, 2⟩ [2])] []).isSome = true ∧
    initialTree.NumNodes ≤
      Tree.NumNodes ⟨[([], { filename := [], filesize := 0, modifiedTime := 0,
                             sha256sum := none, children := some ["a"] }),
                      (["a", "b"], nodeOf ⟨["a", "b"], 0, 1⟩ [1]),
                      (["a"], nodeOf ⟨["a"], 0, 2⟩ [2])]⟩ :=
  ⟨by decide,
   (C8_no_deletion.2 (fjTable tblCollide) [idBackend [[1], [2]]] initialTree
      ⟨[([], { filename := [], filesize := 0, modifiedTime := 0,
               sha256sum := none, children := some ["a"] }),
        (["a", "b"], nodeOf ⟨["a", "b"], 0, 1⟩ [1]),
        (["a"], nodeOf ⟨["a"], 0, 2⟩ [2])]⟩ (by decide)).1 [] (by decide),
   (C8_no_deletion.2 (fjTable tblCollide) [idBackend [[1], [2]]] initialTree
      ⟨[([], { filename := [], filesize := 0, modifiedTime := 0,
               sha256sum := none, children := some ["a"] }),
        (["a", "b"], nodeOf ⟨["a", "b"], 0, 1⟩ [1]),
        (["a"], nodeOf ⟨["a"], 0, 2⟩ [2])]⟩ (by decide)).2⟩

/-! ## Claim C9: the `Synthetic` predicate -/

/-- C9.  `Synthetic` is true exactly for nodes without a content hash; at
construction every node (the root) is synthetic; and after a refresh pass
a node is synthetic iff it was synthetic (or absent) before the pass and
the pass installed no parsed record at its path — so nodes created only
as ancestors report synthetic, and nodes built from a parsed record never
do. -/
theorem C9_synthetic :
    (∀ n : Node, n.Synthetic = true ↔ n.sha256sum = none) ∧
    (∀ (p : Path) (n : Node), lookupNode initialTree.nodes p = some n →
      n.Synthetic = true) ∧
    (∀ (fj : Blob → Option ShadeFile) (b : Backend) (t t' : Tree)
       (known' : List Hash),
      refresh fj b t = .ok t' known' →
      ∀ (p : Path) (n : Node), lookupNode t'.nodes p = some n →
        (n.Synthetic = true ↔
          ((∀ n0, lookupNode t.nodes p = some n0 → n0.Synthetic = true) ∧
           ¬∃ h' f', h' ∈ known' ∧ decodeF fj b.getChunk h' = some f' ∧
             f'.filename = p))) := by
  refine ⟨?_, ?_, ?_⟩
  · intro n
    simp [Node.Synthetic]
  · intro p n hl
    simp only [initialTree, lookupNode] at hl
    by_cases hp : ([] : Path) = p
    · rw [if_pos hp, Option.some_inj] at hl
      subst hl
      rfl
    · rw [if_neg hp] at hl
      cases hl
  · intro fj b t t' known' href p n hl
    unfold refresh at href
    cases hlf : b.listFiles with
    | none => rw [hlf] at href; cases href
    | some L =>
      rw [hlf] at href
      have hsha := refreshLoop_sha fj b.getChunk L [] t.nodes t' known' href p
      rw [hl] at hsha
      simp only [Option.some_bind] at hsha
      have hsyn : (n.Synthetic = true) ↔ n.sha256sum = none := by
        simp [Node.Synthetic]
      rw [hsyn, hsha]
      constructor
      · rintro ⟨hnone, hne⟩
        constructor
        · intro n0 hl0
          rw [hl0, Option.some_bind] at hnone
          simp [Node.Synthetic, hnone]
        · rintro ⟨h', f', hmem, hdec, hfn⟩
          exact hne ⟨h', f', hmem, List.not_mem_nil h', hdec, hfn⟩
      · rintro ⟨hall, hne⟩
        constructor
        · cases hl0 : lookupNode t.nodes p with
          | none => rfl
          | some n0 =>
            rw [Option.some_bind]
            have hsn := hall n0 hl0
            simpa [Node.Synthetic] using hsn
        · rintro ⟨h', f', hmem, _, hdec, hfn⟩
          exact hne ⟨h', f', hmem, hdec, hfn⟩

/-- C9, witness: the pass over `tblCollide` evaluated concretely; the
node at `"a/b"`, built from a parsed record, is not synthetic, and the
equivalence of the claim holds at that path. -/
theorem C9_synthetic_witness :
    refresh (fjTable tblCollide) (idBackend [[1], [2]]) initialTree =
      .ok ⟨[([], { filename := [], filesize := 0, modifiedTime := 0,
                   sha256sum := none, children := some ["a"] }),
            (["a", "b"], nodeOf ⟨["a", "b"], 0, 1⟩ [1]),
            (["a"], nodeOf ⟨["a"], 0, 2⟩ [2])]⟩ [[2], [1]] ∧
    lookupNode [([], { filename := [], filesize := 0, modifiedTime := 0,
                       sha256sum := none, children := some ["a"] }),
                (["a", "b"], nodeOf ⟨["a", "b"], 0, 1⟩ [1]),
                (["a"], nodeOf ⟨["a"], 0, 2⟩ [2])] ["a", "b"] =
      some (nodeOf ⟨["a", "b"], 0, 1⟩ [1]) ∧
    ((nodeOf ⟨["a", "b"], 0, 1⟩ [1]).Synthetic = true ↔
      ((∀ n0, lookupNode initialTree.nodes ["a", "b"] = some n0 →
        n0.Synthetic = true) ∧
       ¬∃ h' f', h' ∈ ([[2], [1]] : List Hash) ∧
         decodeF (fjTable tblCollide) (idBackend [[1], [2]]).getChunk h' = some f' ∧
         f'.filename = ["a", "b"])) :=
  ⟨by decide, by decide,
   C9_synthetic.2.2 (fjTable tblCollide) (idBackend [[1], [2]]) initialTree
     ⟨[([], { filename := [], filesize := 0, modifiedTime := 0,
              sha256sum := none, children := some ["a"] }),
       (["a", "b"], nodeOf ⟨["a", "b"], 0, 1⟩ [1]),
       (["a"], nodeOf ⟨["a"], 0, 2⟩ [2])]⟩ [[2], [1]] (by decide)
     ["a", "b"] (nodeOf ⟨["a", "b"], 0, 1⟩ [1]) (by decide)⟩

/-! ## Claim C10: installing a record wipes a directory's children -/

/-- C10.  When the refresh step installs a record at a path that
currently holds a directory node with registered children, the whole map
entry is replaced by the record's node, whose `Children` map is nil:
afterwards `HasChild` is false for every former child at that path, while
the child nodes themselves (at `path ++ [c]`) are untouched. -/
theorem C10_install_wipes_children (m : Nodes) (h : Hash) (f : ShadeFile)
    (ex : Node) (cs : List String) (m' : Nodes) (b : Bool)
    (hne : f.filename ≠ [])
    (hl : lookupNode m f.filename = some ex)
    (hcs : ex.children = some cs)
    (hnot : ¬ f.modifiedTime < ex.modifiedTime)
    (ht : tryInstall m h f = some (m', b)) :
    b = true ∧
    lookupNode m' f.filename = some (nodeOf f h) ∧
    (nodeOf f h).children = none ∧
    (∀ c, hasChildB m' f.filename c = false) ∧
    (∀ c, lookupNode m' (f.filename ++ [c]) = lookupNode m (f.filename ++ [c])) := by
  have hnew : ∀ ex', lookupNode m f.filename = some ex' →
      ¬ f.modifiedTime < ex'.modifiedTime := by
    intro ex' hl'
    rw [hl, Option.some_inj] at hl'
    subst hl'
    exact hnot
  obtain ⟨hb, hap⟩ := tryInstall_no_skip m h f m' b ht hnew
  subst hb
  have hlk : lookupNode m' f.filename = some (nodeOf f h) :=
    tryInstall_installed_lookup m h f m' ht
  refine ⟨rfl, hlk, rfl, ?_, ?_⟩
  · intro c
    unfold hasChildB
    simp only [hlk]
    rfl
  · intro c
    have hnt : ¬ TouchedDir (f.filename ++ [c]) f.filename.reverse := by
      rintro ⟨hs, _⟩
      have hlen := hs.length_le
      simp only [List.length_reverse, List.length_append,
        List.length_singleton] at hlen
      omega
    have hfr := addParentsRev_frame f.filename.reverse _ _ hap
      (f.filename ++ [c]) hnt
    rw [hfr, lookup_upsert, if_neg ?hne2]
    case hne2 =>
      intro heq
      have := congrArg List.length heq
      simp at this

/-- C10, witness: installing the record `(path "a", T 2, hash [2])` over
the synthesized directory at `"a"` (child set `{"b"}`), evaluated
concretely: the entry is replaced, `HasChild "a" "b"` turns false, and
the node at `"a/b"` is untouched. -/
theorem C10_install_wipes_children_witness :
    ((⟨["a"], 0, 2⟩ : ShadeFile).filename ≠ [] ∧
     lookupNode [([], { filename := [], filesize := 0, modifiedTime := 0,
                        sha256sum := none, children := some ["a"] }),
                 (["a", "b"], nodeOf ⟨["a", "b"], 0, 1⟩ [1]),
                 (["a"], { filename := ["a"], filesize := 0, modifiedTime := 0,
                           sha256sum := none, children := some ["b"] })]
       (⟨["a"], 0, 2⟩ : ShadeFile).filename =
       some { filename := ["a"], filesize := 0, modifiedTime := 0,
              sha256sum := none, children := some ["b"] } ∧
     ¬ (⟨["a"], 0, 2⟩ : ShadeFile).modifiedTime <
       ({ filename := ["a"], filesize := 0, modifiedTime := 0,
          sha256sum := none, children := some ["b"] } : Node).modifiedTime ∧
     tryInstall [([], { filename := [], filesize := 0, modifiedTime := 0,
                        sha256sum := none, children := some ["a"] }),
                 (["a", "b"], nodeOf ⟨["a", "b"], 0, 1⟩ [1]),
                 (["a"], { filename := ["a"], filesize := 0, modifiedTime := 0,
                           sha256sum := none, children := some ["b"] })]
       [2] ⟨["a"], 0, 2⟩ =
       some ([([], { filename := [], filesize := 0, modifiedTime := 0,
                     sha256sum := none, children := some ["a"] }),
              (["a", "b"], nodeOf ⟨["a", "b"], 0, 1⟩ [1]),
              (["a"], nodeOf ⟨["a"], 0, 2⟩ [2])], true)) ∧
    (hasChildB [([], { filename := [], filesize := 0, modifiedTime := 0,
                       sha256sum := none, children := some ["a"] }),
                (["a", "b"], nodeOf ⟨["a", "b"], 0, 1⟩ [1]),
                (["a"], nodeOf ⟨["a"], 0, 2⟩ [2])] (⟨["a"], 0, 2⟩ : ShadeFile).filename "b" = false ∧
     lookupNode [([], { filename := [], filesize := 0, modifiedTime := 0,
                        sha256sum := none, children := some ["a"] }),
                 (["a", "b"], nodeOf ⟨["a", "b"], 0, 1⟩ [1]),
                 (["a"], nodeOf ⟨["a"], 0, 2⟩ [2])]
        ((⟨["a"], 0, 2⟩ : ShadeFile).filename ++ ["b"]) =
       lookupNode [([], { filename := [], filesize := 0, modifiedTime := 0,
                          sha256sum := none, children := some ["a"] }),
                   (["a", "b"], nodeOf ⟨["a", "b"], 0, 1⟩ [1]),
                   (["a"], { filename := ["a"], filesize := 0, modifiedTime := 0,
                             sha256sum := none, children := some ["b"] })]
        ((⟨["a"], 0, 2⟩ : ShadeFile).filename ++ ["b"])) :=
  ⟨⟨by decide, by decide, by decide, by decide⟩,
   (C10_install_wipes_children
      [([], { filename := [], filesize := 0, modifiedTime := 0,
              sha256sum := none, children := some ["a"] }),
       (["a", "b"], nodeOf ⟨["a", "b"], 0, 1⟩ [1]),
       (["a"], { filename := ["a"], filesize := 0, modifiedTime := 0,
                 sha256sum := none, children := some ["b"] })]
      [2] ⟨["a"], 0, 2⟩
      { filename := ["a"], filesize := 0, modifiedTime := 0,
        sha256sum := none, children := some ["b"] } ["b"]
      [([], { filename := [], filesize := 0, modifiedTime := 0,
              sha256sum := none, children := some ["a"] }),
       (["a", "b"], nodeOf ⟨["a", "b"], 0, 1⟩ [1]),
       (["a"], nodeOf ⟨["a"], 0, 2⟩ [2])] true
      (by decide) (by decide) (by decide) (by decide) (by decide)).2.2.2.1 "b",
   (C10_install_wipes_children
      [([], { filename := [], filesize := 0, modifiedTime := 0,
              sha256sum := none, children := some ["a"] }),
       (["a", "b"], nodeOf ⟨["a", "b"], 0, 1⟩ [1]),
       (["a"], { filename := ["a"], filesize := 0, modifiedTime := 0,
                 sha256sum := none, children := some ["b"] })]
      [2] ⟨["a"], 0, 2⟩
      { filename := ["a"], filesize := 0, modifiedTime := 0,
        sha256sum := none, children := some ["b"] } ["b"]
      [([], { filename := [], filesize := 0, modifiedTime := 0,
              sha256sum := none, children := some ["a"] }),
       (["a", "b"], nodeOf ⟨["a", "b"], 0, 1⟩ [1]),
       (["a"], nodeOf ⟨["a"], 0, 2⟩ [2])] true
      (by decide) (by decide) (by decide) (by decide) (by decide)).2.2.2.2 "b"⟩

/-! ## Index bookkeeping for reachability -/

theorem reachableB_iff (m : Nodes) (p : Path) :
    reachableB m p = true ↔
      ∀ i, i < p.length → hasChildB m (p.take i) (p.getD i "") = true := by
  simp [reachableB, List.all_eq_true, List.mem_range]

theorem hasChildB_true_iff (m : Nodes) (q : Path) (c : String) :
    hasChildB m q c = true ↔
      ∃ n cs, lookupNode m q = some n ∧ n.children = some cs ∧ c ∈ cs := by
  unfold hasChildB
  cases hl : lookupNode m q with
  | none => simp [hl]
  | some n =>
    cases hc : n.children with
    | none => simp [hl, hc]
    | some cs =>
      simp only [hl, hc, decide_eq_true_eq]
      constructor
      · intro hcm
        exact ⟨n, cs, rfl, hc, hcm⟩
      · rintro ⟨n', cs', hn', hc', hm'⟩
        rw [Option.some_inj] at hn'
        subst hn'
        rw [hc, Option.some_inj] at hc'
        subst hc'
        exact hm'

theorem take_head_suffix (p : Path) (i : Nat) (h : i < p.length) :
    (p.getD i "" :: (p.take i).reverse) <:+ p.reverse := by
  have hdrop : p.drop i = p.getD i "" :: p.drop (i + 1) := by
    rw [List.getD_eq_getElem p _ h]
    exact List.drop_eq_getElem_cons h
  have hsplit : p = p.take i ++ (p.getD i "" :: p.drop (i + 1)) := by
    rw [← hdrop, List.take_append_drop]
  refine ⟨(p.drop (i + 1)).reverse, ?_⟩
  conv_rhs => rw [hsplit]
  rw [List.reverse_append, List.reverse_cons, List.append_assoc,
    List.singleton_append]

theorem cons_suffix_index (p : Path) (g : String) (s : List String)
    (h : (g :: s) <:+ p.reverse) :
    ∃ i, i < p.length ∧ s.reverse = p.take i ∧ p.getD i "" = g := by
  obtain ⟨u, hu⟩ := h
  have hp : s.reverse ++ g :: u.reverse = p := by
    have h2 := congrArg List.reverse hu
    rw [List.reverse_reverse, List.reverse_append, List.reverse_cons,
      List.append_assoc, List.singleton_append] at h2
    exact h2
  refine ⟨s.length, ?_, ?_, ?_⟩
  · rw [← hp, List.length_append]
    simp
  · rw [← hp, show s.length = s.reverse.length from (List.length_reverse s).symm]
    exact (List.take_left s.reverse _).symm
  · rw [← hp, show s.length = s.reverse.length from (List.length_reverse s).symm,
      List.getD_eq_getElem?_getD, List.getElem?_append_right (Nat.le_refl _)]
    simp

theorem strict_ancestor_iff_touched (q p : Path) :
    (∃ u, u ≠ [] ∧ q ++ u = p) ↔ TouchedDir q p.reverse := by
  rw [touchedDir_reverse_iff]
  constructor
  · rintro ⟨u, hu, rfl⟩
    refine ⟨q.length, ?_, (List.take_left q u).symm⟩
    have hpos : 0 < u.length := List.length_pos.2 hu
    rw [List.length_append]
    omega
  · rintro ⟨i, hi, rfl⟩
    refine ⟨p.drop i, ?_, List.take_append_drop i p⟩
    intro hx
    rw [List.drop_eq_nil_iff] at hx
    omega

theorem mem_dirsOf (q p : Path) : q ∈ dirsOf p ↔ TouchedDir q p.reverse := by
  unfold dirsOf
  exact mem_dirsRevList q p.reverse

theorem getD_take_of_lt (p : Path) (i j : Nat) (h : i < j) :
    (p.take j).getD i "" = p.getD i "" := by
  rw [List.getD_eq_getElem?_getD, List.getD_eq_getElem?_getD,
    List.getElem?_take_of_lt h]

/-! ## Preservation of the reachability invariant (claim C4) -/

theorem goodState_initial (good : Path → Prop) :
    GoodState good initialTree.nodes := by
  refine ⟨?_, ?_, ?_⟩
  · intro q n hl
    simp only [initialTree, lookupNode] at hl
    by_cases hq : ([] : Path) = q
    · exact Or.inl hq.symm
    · rw [if_neg hq] at hl
      cases hl
  · intro q n hl _
    simp only [initialTree, lookupNode] at hl
    by_cases hq : ([] : Path) = q
    · rw [if_pos hq, Option.some_inj] at hl
      subst hl
      rfl
    · rw [if_neg hq] at hl
      cases hl
  · intro q n hl
    simp only [initialTree, lookupNode] at hl
    by_cases hq : ([] : Path) = q
    · subst hq
      rfl
    · rw [if_neg hq] at hl
      cases hl

theorem goodState_tryInstall (good : Path → Prop)
    (hg1 : ∀ p, good p → p ≠ [])
    (hg2 : ∀ p q, good p → good q → (∃ u, p ++ u = q) → p = q)
    (m : Nodes) (h : Hash) (f : ShadeFile) (m' : Nodes) (b : Bool)
    (hgood : good f.filename)
    (hgs : GoodState good m)
    (ht : tryInstall m h f = some (m', b)) :
    GoodState good m' := by
  obtain ⟨hI1, hI2, hI3⟩ := hgs
  rcases tryInstall_cases m h f m' b ht with ⟨_, rfl, _⟩ | ⟨_, hap⟩
  · exact ⟨hI1, hI2, hI3⟩
  have hp0ne : f.filename ≠ [] := hg1 f.filename hgood
  have hnoAbove : ∀ (q : Path) (n : Node), lookupNode m q = some n →
      ∀ u, u ≠ [] → f.filename ++ u ≠ q := by
    intro q n hl u hu hq
    rcases hI1 q n hl with rfl | ⟨pg, hpg, w, hw⟩
    · have hlen := congrArg List.length hq
      rw [List.length_append] at hlen
      simp only [List.length_nil] at hlen
      exact hu (List.length_eq_zero.1 (by omega))
    · have hcomb : f.filename ++ (u ++ w) = pg := by
        rw [← List.append_assoc, hq, hw]
      have hpeq : f.filename = pg := hg2 f.filename pg hgood hpg ⟨u ++ w, hcomb⟩
      rw [← hpeq] at hcomb
      have hlen := congrArg List.length hcomb
      rw [List.length_append, List.length_append] at hlen
      have hu0 : 0 < u.length := List.length_pos.2 hu
      omega
  have hkeys := addParentsRev_keys f.filename.reverse _ _ hap
  have hframe := addParentsRev_frame f.filename.reverse _ _ hap
  have hchild := addParentsRev_child f.filename.reverse _ _ hap
  have hedge : ∀ i, i < f.filename.length →
      hasChildB m' (f.filename.take i) (f.filename.getD i "") = true := by
    intro i hi
    obtain ⟨n, cs, hln, hcn, hmem⟩ := hchild (f.filename.getD i "")
      (f.filename.take i).reverse (take_head_suffix f.filename i hi)
    rw [List.reverse_reverse] at hln
    rw [hasChildB_true_iff]
    exact ⟨n, cs, hln, hcn, hmem⟩
  have hreach_p0 : reachableB m' f.filename = true :=
    (reachableB_iff _ _).2 fun i hi => hedge i hi
  have hreach_touch : ∀ j, j < f.filename.length →
      reachableB m' (f.filename.take j) = true := by
    intro j hj
    rw [reachableB_iff]
    intro i hi
    rw [List.length_take] at hi
    have hij : i < j := lt_of_lt_of_le hi (min_le_left _ _)
    have hip : i < f.filename.length := lt_of_lt_of_le hi (min_le_right _ _)
    rw [List.take_take, min_eq_left (Nat.le_of_lt hij), getD_take_of_lt _ _ _ hij]
    exact hedge i hip
  have hold_edge : ∀ (q : Path), (lookupNode m q).isSome = true →
      ∀ i, i < q.length →
      hasChildB m (q.take i) (q.getD i "") = true →
      hasChildB m' (q.take i) (q.getD i "") = true := by
    intro q hq i hi he
    have hneq : q.take i ≠ f.filename := by
      intro heq
      obtain ⟨n, hn⟩ := Option.isSome_iff_exists.1 hq
      refine hnoAbove q n hn (q.drop i) ?_ ?_
      · intro hx
        rw [List.drop_eq_nil_iff] at hx
        omega
      · rw [← heq, List.take_append_drop]
    have h1 : hasChildB (upsert m f.filename (nodeOf f h))
        (q.take i) (q.getD i "") = true := by
      unfold hasChildB at he ⊢
      rw [lookup_upsert, if_neg hneq]
      exact he
    exact addParentsRev_hasChild_mono f.filename.reverse _ _ hap _ _ h1
  refine ⟨?_, ?_, ?_⟩
  · -- keys stay below good paths
    intro q n hl
    have hqsome : (lookupNode m' q).isSome = true := by
      rw [hl]
      rfl
    rw [hkeys q, isSome_lookup_upsert] at hqsome
    rcases hqsome with (rfl | hsome) | htouch
    · exact Or.inr ⟨f.filename, hgood, [], by simp⟩
    · obtain ⟨n0, hn0⟩ := Option.isSome_iff_exists.1 hsome
      exact hI1 q n0 hn0
    · obtain ⟨u, hu, he⟩ := (strict_ancestor_iff_touched q f.filename).2 htouch
      exact Or.inr ⟨f.filename, hgood, u, he⟩
  · -- strict ancestors of good paths stay directories
    intro q n hl hcond
    by_cases hq0 : q = f.filename
    · subst hq0
      rcases hcond with h0 | ⟨pg, hpg, u, hu, he⟩
      · exact absurd h0 hp0ne
      · have hpeq : f.filename = pg := hg2 f.filename pg hgood hpg ⟨u, he⟩
        rw [← hpeq] at he
        have hlen := congrArg List.length he
        rw [List.length_append] at hlen
        have hu0 : 0 < u.length := List.length_pos.2 hu
        omega
    · by_cases htouch : TouchedDir q f.filename.reverse
      · obtain ⟨g, hgsuf⟩ := touchedDir_exists_head q f.filename.reverse htouch
        obtain ⟨n2, cs2, hln2, hcn2, _⟩ := hchild g q.reverse hgsuf
        rw [List.reverse_reverse] at hln2
        rw [hl, Option.some_inj] at hln2
        subst hln2
        rw [hcn2]
        rfl
      · have hlq : lookupNode m' q = lookupNode m q := by
          rw [hframe q htouch, lookup_upsert, if_neg hq0]
        rw [hlq] at hl
        exact hI2 q n hl hcond
  · -- every key stays reachable
    intro q n hl
    have hqsome : (lookupNode m' q).isSome = true := by
      rw [hl]
      rfl
    rw [hkeys q, isSome_lookup_upsert] at hqsome
    rcases hqsome with (rfl | hsome) | htouch
    · exact hreach_p0
    · obtain ⟨n0, hn0⟩ := Option.isSome_iff_exists.1 hsome
      have hre := hI3 q n0 hn0
      rw [reachableB_iff] at hre ⊢
      intro i hi
      exact hold_edge q (by rw [hn0]; rfl) i hi (hre i hi)
    · obtain ⟨i, hi, rfl⟩ := (touchedDir_reverse_iff q f.filename).1 htouch
      exact hreach_touch i hi

theorem goodState_refreshLoop (good : Path → Prop)
    (hg1 : ∀ p, good p → p ≠ [])
    (hg2 : ∀ p q, good p → good q → (∃ u, p ++ u = q) → p = q)
    (fj : Blob → Option ShadeFile) (gc : Hash → Option Blob)
    (hrec : ∀ sha f, decodeF fj gc sha = some f → good f.filename)
    (L : List Hash) :
    ∀ (known : List Hash) (m : Nodes) (t' : Tree) (known' : List Hash),
    GoodState good m → refreshLoop fj gc L known m = .ok t' known' →
    GoodState good t'.nodes := by
  induction L with
  | nil =>
    intro known m t' known' hgs h
    simp only [refreshLoop, RefreshResult.ok.injEq] at h
    rw [← h.1]
    exact hgs
  | cons sha rest ih =>
    intro known m t' known' hgs h
    simp only [refreshLoop] at h
    by_cases hk : sha ∈ known
    · rw [if_pos hk] at h
      exact ih known m t' known' hgs h
    · rw [if_neg hk] at h
      cases hgc : gc sha with
      | none =>
        simp only [hgc] at h
        exact ih known m t' known' hgs h
      | some blob =>
        simp only [hgc] at h
        cases hfj : fj blob with
        | none =>
          simp only [hfj] at h
          exact ih known m t' known' hgs h
        | some file =>
          simp only [hfj] at h
          cases hti : tryInstall m sha file with
          | none => simp only [hti] at h; cases h
          | some pr =>
            obtain ⟨m2, b⟩ := pr
            simp only [hti] at h
            have hgood : good file.filename := by
              apply hrec sha file
              unfold decodeF
              rw [hgc, Option.some_bind, hfj]
            exact ih _ _ _ _
              (goodState_tryInstall good hg1 hg2 m sha file m2 b hgood hgs hti) h

theorem goodState_runPasses (good : Path → Prop)
    (hg1 : ∀ p, good p → p ≠ [])
    (hg2 : ∀ p q, good p → good q → (∃ u, p ++ u = q) → p = q)
    (fj : Blob → Option ShadeFile) (bs : List Backend) :
    ∀ (t t' : Tree),
    (∀ b, b ∈ bs → ∀ sha f, decodeF fj b.getChunk sha = some f → good f.filename) →
    GoodState good t.nodes → runPasses fj bs t = some t' →
    GoodState good t'.nodes := by
  induction bs with
  | nil =>
    intro t t' _ hgs h
    rw [runPasses, Option.some_inj] at h
    subst h
    exact hgs
  | cons b rest ih =>
    intro t t' hrec hgs h
    rw [runPasses] at h
    cases href : refresh fj b t with
    | listError =>
      rw [href] at h
      exact ih t t' (fun b' hb' => hrec b' (List.mem_cons_of_mem b hb')) hgs h
    | panicked =>
      rw [href] at h
      cases h
    | ok t2 known2 =>
      rw [href] at h
      unfold refresh at href
      cases hlf : b.listFiles with
      | none => rw [hlf] at href; cases href
      | some L =>
        rw [hlf] at href
        have hgs2 := goodState_refreshLoop good hg1 hg2 fj b.getChunk
          (hrec b (List.mem_cons_self b rest)) L [] t.nodes t2 known2 hgs href
        exact ih t2 t' (fun b' hb' => hrec b' (List.mem_cons_of_mem b hb')) hgs2 h

/-! ## Claim C4: reachability of every node from the root -/

/-- C4, counterexample.  After one pass over `tblCollide` (record
`"a/b"`, then a newer record at its ancestor `"a"`), the node `"a/b"` is
present in the mapping but not reachable from the root through `Children`
membership: the install at `"a"` replaced the synthesized directory with
a file node whose `Children` map is nil, so the chain root → `"a"` →
`"a/b"` is broken at its second step. -/
theorem C4_counterexample :
    presentAt (refresh (fjTable tblCollide) (idBackend [[1], [2]]) initialTree)
      ["a", "b"] = some true ∧
    reachAt (refresh (fjTable tblCollide) (idBackend [[1], [2]]) initialTree)
      ["a", "b"] = some false := by
  decide

/-- C4, amended.  Over any sequence of refresh passes from a newly
constructed Tree in which every decodable record's path is non-root and
no record path is an ancestor of another (`good` is ancestor-free), every
Node in the mapping is reachable from the root through a chain of
`Children` membership matching its path segments (for the root the chain
is empty). -/
theorem C4_amended (fj : Blob → Option ShadeFile) (good : Path → Prop)
    (bs : List Backend) (t : Tree)
    (hg1 : ∀ p, good p → p ≠ [])
    (hg2 : ∀ p q, good p → good q → (∃ u, p ++ u = q) → p = q)
    (hrec : ∀ b, b ∈ bs → ∀ sha f, decodeF fj b.getChunk sha = some f →
      good f.filename)
    (hrun : runPasses fj bs initialTree = some t) :
    ∀ (p : Path) (n : Node), lookupNode t.nodes p = some n →
      reachableB t.nodes p = true := by
  have hgs := goodState_runPasses good hg1 hg2 fj bs initialTree t hrec
    (goodState_initial good) hrun
  exact fun p n hl => hgs.2.2 p n hl

/-- C4, witness: one pass over a single record at `"x"`, evaluated
concretely; the installed node is reachable. -/
theorem C4_amended_witness :
    runPasses (fjTable [([1], ⟨["x"], 0, 1⟩)]) [idBackend [[1]]] initialTree =
      some ⟨[([], { filename := [], filesize := 0, modifiedTime := 0,
                    sha256sum := none, children := some ["x"] }),
             (["x"], nodeOf ⟨["x"], 0, 1⟩ [1])]⟩ ∧
    lookupNode [([], { filename := [], filesize := 0, modifiedTime := 0,
                       sha256sum := none, children := some ["x"] }),
                (["x"], nodeOf ⟨["x"], 0, 1⟩ [1])] ["x"] =
      some (nodeOf ⟨["x"], 0, 1⟩ [1]) ∧
    reachableB [([], { filename := [], filesize := 0, modifiedTime := 0,
                       sha256sum := none, children := some ["x"] }),
                (["x"], nodeOf ⟨["x"], 0, 1⟩ [1])] ["x"] = true :=
  ⟨by decide, by decide,
   C4_amended (fjTable [([1], ⟨["x"], 0, 1⟩)]) (fun p => p = ["x"])
     [idBackend [[1]]]
     ⟨[([], { filename := [], filesize := 0, modifiedTime := 0,
              sha256sum := none, children := some ["x"] }),
       (["x"], nodeOf ⟨["x"], 0, 1⟩ [1])]⟩
     (fun p hp => by subst hp; decide)
     (fun p q hp hq _ => by rw [hp, hq])
     (by
       intro b hb sha f hdec
       simp only [List.mem_singleton] at hb
       subst hb
       simp only [decodeF, idBackend, Option.some_bind, fjTable,
         List.lookup] at hdec
       split at hdec
       · rw [Option.some_inj] at hdec
         subst hdec
         rfl
       · cases hdec)
     (by decide)
     ["x"] (nodeOf ⟨["x"], 0, 1⟩ [1]) (by decide)⟩

/-! ## One clean refresh pass (claims C6 and C7) -/

theorem tryInstall_fresh (m : Nodes) (h : Hash) (f : ShadeFile)
    (hl : lookupNode m f.filename = none) (m2 : Nodes)
    (hap : addParents f.filename (upsert m f.filename (nodeOf f h)) = some m2) :
    tryInstall m h f = some (m2, true) := by
  unfold tryInstall
  have hl' : lookupNode m (nodeOf f h).filename = none := hl
  simp only [hl']
  have hap' : addParents (nodeOf f h).filename
      (upsert m (nodeOf f h).filename (nodeOf f h)) = some m2 := hap
  simp only [hap']

theorem tryInstall_eq_of_addParents (m : Nodes) (h : Hash) (f : ShadeFile)
    (ex : Node) (hl : lookupNode m f.filename = some ex)
    (hnot : ¬ f.modifiedTime < ex.modifiedTime) (m2 : Nodes)
    (hap : addParents f.filename (upsert m f.filename (nodeOf f h)) = some m2) :
    tryInstall m h f = some (m2, true) := by
  unfold tryInstall
  have hl' : lookupNode m (nodeOf f h).filename = some ex := hl
  simp only [hl']
  have hnot' : ¬ (nodeOf f h).modifiedTime < ex.modifiedTime := hnot
  rw [if_neg hnot']
  have hap' : addParents (nodeOf f h).filename
      (upsert m (nodeOf f h).filename (nodeOf f h)) = some m2 := hap
  simp only [hap']

theorem hasChild_after_install (m : Nodes) (p0 : Path) (node : Node)
    (m2 : Nodes)
    (hap : addParentsRev (upsert m p0 node) p0.reverse = some m2)
    (d : Path) (c : String) (hne : d ≠ p0)
    (he : hasChildB m d c = true) : hasChildB m2 d c = true := by
  apply addParentsRev_hasChild_mono p0.reverse _ _ hap
  unfold hasChildB at he ⊢
  rw [lookup_upsert, if_neg hne]
  exact he

theorem length_eq_card_keysF (m : Nodes)
    (h : (m.map Prod.fst).Nodup) : m.length = (keysF m).card := by
  rw [keysF, List.toFinset_card_of_nodup h, List.length_map]

theorem passInv_initial (F : Hash → ShadeFile) :
    PassInv F [] initialTree.nodes := by
  refine ⟨?_, ?_, ?_, ?_, ?_⟩
  · intro sha hm
    cases hm
  · intro sha hm
    cases hm
  · intro q n hl _
    simp only [initialTree, lookupNode] at hl
    by_cases hq : ([] : Path) = q
    · rw [if_pos hq, Option.some_inj] at hl
      subst hl
      rfl
    · rw [if_neg hq] at hl
      cases hl
  · simp [keysF, initialTree]
  · simp [initialTree]

theorem passInv_step (F : Hash → ShadeFile) (done : List Hash) (m : Nodes)
    (sha : Hash)
    (hinv : PassInv F done m)
    (hne : (F sha).filename ≠ [])
    (hfresh : ∀ sha2, sha2 ∈ done → (F sha).filename ≠ (F sha2).filename)
    (hanc1 : ∀ sha2, sha2 ∈ done → ∀ u, u ≠ [] →
      (F sha).filename ++ u ≠ (F sha2).filename)
    (hanc2 : ∀ sha2, sha2 ∈ done → ∀ u, u ≠ [] →
      (F sha2).filename ++ u ≠ (F sha).filename) :
    ∃ m2, tryInstall m sha (F sha) = some (m2, true) ∧
      PassInv F (sha :: done) m2 := by
  obtain ⟨hR, hE, hD, hK, hN⟩ := hinv
  have hkeyp0 : (F sha).filename ∉ keysF m := by
    rw [hK]
    simp only [Finset.mem_insert, Finset.mem_union, List.mem_toFinset,
      List.mem_map, Finset.mem_biUnion]
    rintro (h0 | ⟨sha2, hm2, he⟩ | ⟨p, ⟨sha2, hm2, rfl⟩, hdm⟩)
    · exact hne h0
    · exact hfresh sha2 hm2 he.symm
    · rw [mem_dirsOf] at hdm
      obtain ⟨u, hu, he⟩ := (strict_ancestor_iff_touched _ _).2 hdm
      exact hanc1 sha2 hm2 u hu he
  have hlooknone : lookupNode m (F sha).filename = none := by
    cases hcase : lookupNode m (F sha).filename with
    | none => rfl
    | some nn =>
      exact absurd ((mem_keysF m _).2 (by rw [hcase]; rfl)) hkeyp0
  have hsucc : ∃ m2, addParentsRev
      (upsert m (F sha).filename (nodeOf (F sha) sha))
      (F sha).filename.reverse = some m2 := by
    apply addParentsRev_success
    intro q n htq hlq
    have hqne : q ≠ (F sha).filename := by
      rintro rfl
      exact htq.2 rfl
    rw [lookup_upsert, if_neg hqne] at hlq
    apply hD q n hlq
    intro sha2 hm2 hqe
    subst hqe
    obtain ⟨u, hu, he⟩ := (strict_ancestor_iff_touched _ _).2 htq
    exact hanc2 sha2 hm2 u hu he
  obtain ⟨m2, hap⟩ := hsucc
  have hti : tryInstall m sha (F sha) = some (m2, true) :=
    tryInstall_fresh m sha (F sha) hlooknone m2 hap
  refine ⟨m2, hti, ?_, ?_, ?_, ?_, ?_⟩
  · -- record nodes sit at their paths
    intro sha' hm'
    rcases List.mem_cons.1 hm' with rfl | hm'
    · exact tryInstall_installed_lookup _ _ _ _ hti
    · have hneq : (F sha').filename ≠ (F sha).filename := fun he =>
        hfresh sha' hm' he.symm
      have hnt : ¬ TouchedDir (F sha').filename (F sha).filename.reverse := by
        intro htq
        obtain ⟨u, hu, he⟩ := (strict_ancestor_iff_touched _ _).2 htq
        exact hanc2 sha' hm' u hu he
      have hfr := addParentsRev_frame (F sha).filename.reverse _ _ hap
        (F sha').filename hnt
      rw [hfr, lookup_upsert, if_neg hneq]
      exact hR sha' hm'
  · -- record paths are reachable
    intro sha' hm'
    rcases List.mem_cons.1 hm' with rfl | hm'
    · rw [reachableB_iff]
      intro i hi
      obtain ⟨n, cs, hln, hcn, hmem⟩ := addParentsRev_child
        (F sha').filename.reverse _ _ hap ((F sha').filename.getD i "")
        ((F sha').filename.take i).reverse (take_head_suffix _ i hi)
      rw [List.reverse_reverse] at hln
      rw [hasChildB_true_iff]
      exact ⟨n, cs, hln, hcn, hmem⟩
    · rw [reachableB_iff]
      intro i hi
      have hre := (reachableB_iff _ _).1 (hE sha' hm') i hi
      apply hasChild_after_install m (F sha).filename (nodeOf (F sha) sha)
        m2 hap _ _ ?_ hre
      intro he
      refine hanc1 sha' hm' ((F sha').filename.drop i) ?_ ?_
      · intro hx
        rw [List.drop_eq_nil_iff] at hx
        omega
      · rw [← he, List.take_append_drop]
  · -- non-record keys are directories
    intro q n hlq hnotrec
    have hqp0 : q ≠ (F sha).filename := hnotrec sha (List.mem_cons_self _ _)
    by_cases htq : TouchedDir q (F sha).filename.reverse
    · obtain ⟨g, hgs⟩ := touchedDir_exists_head q _ htq
      obtain ⟨n2, cs2, hln2, hcn2, _⟩ := addParentsRev_child
        (F sha).filename.reverse _ _ hap g q.reverse hgs
      rw [List.reverse_reverse] at hln2
      rw [hlq, Option.some_inj] at hln2
      subst hln2
      rw [hcn2]
      rfl
    · have hfr := addParentsRev_frame (F sha).filename.reverse _ _ hap q htq
      rw [hfr, lookup_upsert, if_neg hqp0] at hlq
      exact hD q n hlq (fun sha2 hm2 => hnotrec sha2 (List.mem_cons_of_mem _ hm2))
  · -- key-set bookkeeping
    have hk2 := addParentsRev_keysF (F sha).filename.reverse _ _ hap
    rw [keysF_upsert] at hk2
    rw [hk2, hK]
    ext x
    simp only [Finset.mem_union, Finset.mem_insert, List.mem_toFinset,
      List.map_cons, List.toFinset_cons, Finset.mem_biUnion, List.mem_map]
    constructor
    · rintro ((rfl | (rfl | (⟨sha2, hm2, rfl⟩ | ⟨p, ⟨sha2, hm2, rfl⟩, hdm⟩))) | hdm0)
      · exact Or.inr (Or.inl (Or.inl rfl))
      · exact Or.inl rfl
      · exact Or.inr (Or.inl (Or.inr ⟨sha2, hm2, rfl⟩))
      · exact Or.inr (Or.inr ⟨(F sha2).filename, Or.inr ⟨sha2, hm2, rfl⟩, hdm⟩)
      · exact Or.inr (Or.inr ⟨(F sha).filename, Or.inl rfl, hdm0⟩)
    · rintro (rfl | ((rfl | ⟨sha2, hm2, rfl⟩) | ⟨p, (rfl | ⟨sha2, hm2, rfl⟩), hdm⟩))
      · exact Or.inl (Or.inr (Or.inl rfl))
      · exact Or.inl (Or.inl rfl)
      · exact Or.inl (Or.inr (Or.inr (Or.inl ⟨sha2, hm2, rfl⟩)))
      · exact Or.inr hdm
      · exact Or.inl (Or.inr (Or.inr (Or.inr ⟨(F sha2).filename, ⟨sha2, hm2, rfl⟩, hdm⟩)))
  · -- keys stay duplicate-free
    exact addParentsRev_nodup (F sha).filename.reverse _ _ hap
      (nodup_upsert _ _ _ hN)

theorem passInv_loop (fj : Blob → Option ShadeFile) (gc : Hash → Option Blob)
    (F : Hash → ShadeFile) (L : List Hash)
    (hdecL : ∀ sha, sha ∈ L → decodeF fj gc sha = some (F sha))
    (hPnodup : (L.map fun sha => (F sha).filename).Nodup)
    (hneL : ∀ sha, sha ∈ L → (F sha).filename ≠ [])
    (hancL : ∀ sha1, sha1 ∈ L → ∀ sha2, sha2 ∈ L → ∀ u, u ≠ [] →
      (F sha1).filename ++ u ≠ (F sha2).filename) :
    ∀ (rest done : List Hash) (m : Nodes),
    (∀ sha, sha ∈ rest → sha ∈ L) →
    (∀ sha, sha ∈ done → sha ∈ L) →
    (∀ sha, sha ∈ rest → sha ∉ done) →
    rest.Nodup →
    PassInv F done m →
    ∃ (t' : Tree) (done' : List Hash),
      refreshLoop fj gc rest done m = .ok t' done' ∧
      (∀ x, x ∈ done' ↔ x ∈ rest ∨ x ∈ done) ∧
      PassInv F done' t'.nodes := by
  intro rest
  induction rest with
  | nil =>
    intro done m _ _ _ _ hinv
    exact ⟨⟨m⟩, done, rfl, fun x => by simp, hinv⟩
  | cons sha rest' ih =>
    intro done m hrL hdL hdisj hnd hinv
    have hshaL : sha ∈ L := hrL sha (List.mem_cons_self _ _)
    have hshand : sha ∉ done := hdisj sha (List.mem_cons_self _ _)
    have hdec := hdecL sha hshaL
    unfold decodeF at hdec
    cases hgc : gc sha with
    | none => rw [hgc] at hdec; cases hdec
    | some blob =>
      rw [hgc, Option.some_bind] at hdec
      have hfresh : ∀ sha2, sha2 ∈ done → (F sha).filename ≠ (F sha2).filename := by
        intro sha2 hm2 he
        have heq : sha = sha2 :=
          List.inj_on_of_nodup_map hPnodup hshaL (hdL sha2 hm2) he
        exact hshand (heq ▸ hm2)
      have hanc1 : ∀ sha2, sha2 ∈ done → ∀ u, u ≠ [] →
          (F sha).filename ++ u ≠ (F sha2).filename :=
        fun sha2 hm2 u hu => hancL sha hshaL sha2 (hdL sha2 hm2) u hu
      have hanc2 : ∀ sha2, sha2 ∈ done → ∀ u, u ≠ [] →
          (F sha2).filename ++ u ≠ (F sha).filename :=
        fun sha2 hm2 u hu => hancL sha2 (hdL sha2 hm2) sha hshaL u hu
      obtain ⟨m2, hti, hinv2⟩ := passInv_step F done m sha hinv
        (hneL sha hshaL) hfresh hanc1 hanc2
      have hrest'L : ∀ s, s ∈ rest' → s ∈ L :=
        fun s hs => hrL s (List.mem_cons_of_mem _ hs)
      have hdL2 : ∀ s, s ∈ sha :: done → s ∈ L := by
        intro s hs
        rcases List.mem_cons.1 hs with rfl | hs
        · exact hshaL
        · exact hdL s hs
      have hdisj2 : ∀ s, s ∈ rest' → s ∉ sha :: done := by
        intro s hs hmem
        rcases List.mem_cons.1 hmem with rfl | hmem
        · exact (List.nodup_cons.1 hnd).1 hs
        · exact hdisj s (List.mem_cons_of_mem _ hs) hmem
      obtain ⟨t', done', hrun, hmem', hinv'⟩ := ih (sha :: done) m2
        hrest'L hdL2 hdisj2 (List.nodup_cons.1 hnd).2 hinv2
      refine ⟨t', done', ?_, ?_, hinv'⟩
      · simp only [refreshLoop]
        rw [if_neg hshand]
        simp only [hgc, hdec, hti, eq_self_iff_true, if_true]
        exact hrun
      · intro x
        rw [hmem' x]
        constructor
        · rintro (hx | hx)
          · exact Or.inl (List.mem_cons_of_mem _ hx)
          · rcases List.mem_cons.1 hx with rfl | hx
            · exact Or.inl (List.mem_cons_self _ _)
            · exact Or.inr hx
        · rintro (hx | hx)
          · rcases List.mem_cons.1 hx with rfl | hx
            · exact Or.inr (List.mem_cons_self _ _)
            · exact Or.inl hx
          · exact Or.inr (List.mem_cons_of_mem _ hx)

theorem refreshLoop_noop (fj : Blob → Option ShadeFile) (gc : Hash → Option Blob)
    (rest : List Hash) :
    ∀ (known : List Hash) (m : Nodes),
    (∀ sha f, sha ∈ rest → decodeF fj gc sha = some f →
      f.filename ≠ [] ∧ lookupNode m f.filename = some (nodeOf f sha) ∧
      reachableB m f.filename = true) →
    ∃ known', refreshLoop fj gc rest known m = .ok ⟨m⟩ known' := by
  induction rest with
  | nil =>
    intro known m _
    exact ⟨known, rfl⟩
  | cons sha rest' ih =>
    intro known m hcond
    have hcond' : ∀ sha' f, sha' ∈ rest' → decodeF fj gc sha' = some f →
        f.filename ≠ [] ∧ lookupNode m f.filename = some (nodeOf f sha') ∧
        reachableB m f.filename = true :=
      fun sha' f hm hd => hcond sha' f (List.mem_cons_of_mem _ hm) hd
    simp only [refreshLoop]
    by_cases hk : sha ∈ known
    · rw [if_pos hk]
      exact ih known m hcond'
    · rw [if_neg hk]
      cases hgc : gc sha with
      | none =>
        simp only [hgc]
        exact ih known m hcond'
      | some blob =>
        simp only [hgc]
        cases hfj : fj blob with
        | none =>
          simp only [hfj]
          exact ih known m hcond'
        | some file =>
          simp only [hfj]
          have hdec : decodeF fj gc sha = some file := by
            unfold decodeF
            rw [hgc, Option.some_bind, hfj]
          obtain ⟨hne, hl, hreach⟩ := hcond sha file (List.mem_cons_self _ _) hdec
          have hapnoop : addParents file.filename m = some m := by
            unfold addParents
            apply addParentsRev_noop
            intro g s hsuf
            obtain ⟨i, hi, hs, hg⟩ := cons_suffix_index file.filename g s hsuf
            have hedge := (reachableB_iff _ _).1 hreach i hi
            rw [hasChildB_true_iff] at hedge
            obtain ⟨n, cs, hln, hcn, hmem⟩ := hedge
            exact ⟨n, cs, by rw [hs]; exact hln, hcn, by rw [← hg]; exact hmem⟩
          have hti : tryInstall m sha file = some (m, true) := by
            apply tryInstall_eq_of_addParents m sha file (nodeOf file sha) hl
            · exact fun hx => lt_irrefl _ hx
            · rw [upsert_noop m file.filename (nodeOf file sha) hl]
              exact hapnoop
          simp only [hti, eq_self_iff_true, if_true]
          exact ih (sha :: known) m hcond'

/-! ## Claim C6: node count N + K and ancestor registration -/

/-- C6, counterexample.  Records `"a/b"` (T 1) then `"a"` (T 2) have
N = 2 distinct paths under K = 2 distinct directory prefixes (root and
`"a"`); the claim predicts 4 nodes, but the pass produces only 3, and
the ancestor `"a"` does not report `"b"` as a child, because the record
installed at `"a"` replaced the synthesized directory. -/
theorem C6_counterexample :
    numNodesAt (refresh (fjTable tblCollide) (idBackend [[1], [2]]) initialTree) =
      some 3 ∧
    KOf [["a", "b"], ["a"]] = 2 ∧
    2 + KOf [["a", "b"], ["a"]] ≠ 3 ∧
    childAt (refresh (fjTable tblCollide) (idBackend [[1], [2]]) initialTree)
      ["a"] "b" = some false := by
  decide

/-- C6, amended.  For N records (distinct hashes) with N distinct,
non-root, mutually non-ancestor full paths, one refresh pass from a new
tree succeeds and yields exactly `N + K` nodes, where `K` counts the
distinct directory prefixes of the record paths (root included), and
every ancestor directory of each record path reports the next path
segment as a child via `HasChild`. -/
theorem C6_amended (fj : Blob → Option ShadeFile) (b : Backend)
    (F : Hash → ShadeFile) (L : List Hash)
    (hlf : b.listFiles = some L)
    (hLnodup : L.Nodup)
    (hdecL : ∀ sha, sha ∈ L → decodeF fj b.getChunk sha = some (F sha))
    (hPnodup : (L.map fun sha => (F sha).filename).Nodup)
    (hneL : ∀ sha, sha ∈ L → (F sha).filename ≠ [])
    (hancL : ∀ sha1, sha1 ∈ L → ∀ sha2, sha2 ∈ L → ∀ u, u ≠ [] →
      (F sha1).filename ++ u ≠ (F sha2).filename) :
    ∃ (t' : Tree) (known' : List Hash),
      refresh fj b initialTree = .ok t' known' ∧
      t'.NumNodes = L.length + KOf (L.map fun sha => (F sha).filename) ∧
      (∀ sha, sha ∈ L → ∀ i, i < (F sha).filename.length →
        t'.HasChild ((F sha).filename.take i) ((F sha).filename.getD i "") = true) := by
  obtain ⟨t', done', hrun, hmem, hinv⟩ := passInv_loop fj b.getChunk F L
    hdecL hPnodup hneL hancL L [] initialTree.nodes
    (fun s hs => hs) (fun s hs => absurd hs (List.not_mem_nil s))
    (fun s _ => List.not_mem_nil s) hLnodup (passInv_initial F)
  obtain ⟨hR, hE, hD, hK, hN⟩ := hinv
  refine ⟨t', done', ?_, ?_, ?_⟩
  · unfold refresh
    rw [hlf]
    exact hrun
  · have hPeq : (done'.map fun sha => (F sha).filename).toFinset =
        (L.map fun sha => (F sha).filename).toFinset := by
      ext x
      simp only [List.mem_toFinset, List.mem_map]
      constructor
      · rintro ⟨s, hs, rfl⟩
        rcases (hmem s).1 hs with hsL | hnil
        · exact ⟨s, hsL, rfl⟩
        · exact absurd hnil (List.not_mem_nil s)
      · rintro ⟨s, hs, rfl⟩
        exact ⟨s, (hmem s).2 (Or.inl hs), rfl⟩
    have hkeys : keysF t'.nodes =
        (L.map fun sha => (F sha).filename).toFinset ∪
          dirSet (L.map fun sha => (F sha).filename) := by
      rw [hK, hPeq]
      unfold dirSet
      ext x
      simp only [Finset.mem_insert, Finset.mem_union, Finset.mem_biUnion]
      tauto
    have hdisjPD : Disjoint (L.map fun sha => (F sha).filename).toFinset
        (dirSet (L.map fun sha => (F sha).filename)) := by
      rw [Finset.disjoint_left]
      intro x hxP hxD
      rw [List.mem_toFinset, List.mem_map] at hxP
      obtain ⟨s, hsL, rfl⟩ := hxP
      unfold dirSet at hxD
      rcases Finset.mem_insert.1 hxD with h0 | hxB
      · exact hneL s hsL h0
      · rw [Finset.mem_biUnion] at hxB
        obtain ⟨p, hp, hdm⟩ := hxB
        rw [List.mem_toFinset, List.mem_map] at hp
        obtain ⟨s2, hs2, rfl⟩ := hp
        rw [List.mem_toFinset, mem_dirsOf] at hdm
        obtain ⟨u, hu, he⟩ := (strict_ancestor_iff_touched _ _).2 hdm
        exact hancL s hsL s2 hs2 u hu he
    have hPcard : (L.map fun sha => (F sha).filename).toFinset.card = L.length := by
      rw [List.toFinset_card_of_nodup hPnodup, List.length_map]
    unfold Tree.NumNodes
    rw [length_eq_card_keysF t'.nodes hN, hkeys,
      Finset.card_union_of_disjoint hdisjPD, hPcard]
    rfl
  · intro sha hsL i hi
    exact (reachableB_iff _ _).1 (hE sha ((hmem sha).2 (Or.inl hsL))) i hi

/-- C6, witness: the amended statement instantiated with a single record
at path `"x"`: the pass yields 1 + 1 nodes (the file plus the root) and
the root reports `"x"` as a child. -/
theorem C6_amended_witness :
    ((idBackend [[1]]).listFiles = some [[1]] ∧ ([[1]] : List Hash).Nodup) ∧
    (∃ (t' : Tree) (known' : List Hash),
      refresh (fjTable [([1], ⟨["x"], 0, 1⟩)]) (idBackend [[1]]) initialTree =
        .ok t' known' ∧
      t'.NumNodes = ([[1]] : List Hash).length +
        KOf (([[1]] : List Hash).map fun _ => (["x"] : Path)) ∧
      (∀ sha, sha ∈ ([[1]] : List Hash) → ∀ i,
        i < ((fun _ : Hash => (⟨["x"], 0, 1⟩ : ShadeFile)) sha).filename.length →
        t'.HasChild ((["x"] : Path).take i) ((["x"] : Path).getD i "") = true)) :=
  ⟨⟨rfl, by decide⟩,
   C6_amended (fjTable [([1], ⟨["x"], 0, 1⟩)]) (idBackend [[1]])
     (fun _ => ⟨["x"], 0, 1⟩) [[1]] rfl (by decide) (by decide) (by decide)
     (by decide)
     (by
       intro sha1 _ sha2 _ u hu he
       have hlen := congrArg List.length he
       rw [List.length_append] at hlen
       simp only [List.length_singleton] at hlen
       exact hu (List.length_eq_zero.1 (by omega)))⟩

/-! ## Claim C7: idempotency of the refresh pass -/

/-- C7, counterexample.  Over `tblCollide` the first pass completes (the
record at `"a"` wipes the synthesized directory), but re-running the same
pass panics: re-installing the unchanged record `"a/b"` walks into the
nil `Children` map of the file node now at `"a"`.  The second run
produces no node count at all, so the two runs are not identical. -/
theorem C7_counterexample :
    runPasses (fjTable tblCollide) [idBackend [[1], [2]]] initialTree ≠ none ∧
    runPasses (fjTable tblCollide)
      [idBackend [[1], [2]], idBackend [[1], [2]]] initialTree = none := by
  decide

/-- C7, amended.  Over an unchanged set of hashes and blobs whose
decodable records have distinct, non-root, mutually non-ancestor paths,
the tree produced by the first refresh pass is a fixed point: running the
pass again returns the identical tree (hence an identical node count and
identical `Children` sets), every re-installed record and
ancestor-registration being a no-op. -/
theorem C7_amended (fj : Blob → Option ShadeFile) (b : Backend)
    (F : Hash → ShadeFile) (L : List Hash)
    (hlf : b.listFiles = some L)
    (hLnodup : L.Nodup)
    (hdecL : ∀ sha, sha ∈ L → decodeF fj b.getChunk sha = some (F sha))
    (hPnodup : (L.map fun sha => (F sha).filename).Nodup)
    (hneL : ∀ sha, sha ∈ L → (F sha).filename ≠ [])
    (hancL : ∀ sha1, sha1 ∈ L → ∀ sha2, sha2 ∈ L → ∀ u, u ≠ [] →
      (F sha1).filename ++ u ≠ (F sha2).filename)
    (t1 : Tree) (k1 : List Hash)
    (h1 : refresh fj b initialTree = .ok t1 k1) :
    ∃ k2, refresh fj b t1 = .ok t1 k2 := by
  obtain ⟨t', done', hrun, hmem, hinv⟩ := passInv_loop fj b.getChunk F L
    hdecL hPnodup hneL hancL L [] initialTree.nodes
    (fun s hs => hs) (fun s hs => absurd hs (List.not_mem_nil s))
    (fun s _ => List.not_mem_nil s) hLnodup (passInv_initial F)
  have h1' : refreshLoop fj b.getChunk L [] initialTree.nodes = .ok t1 k1 := by
    unfold refresh at h1
    rw [hlf] at h1
    exact h1
  rw [hrun] at h1'
  injection h1' with ha hb
  subst ha
  subst hb
  obtain ⟨hR, hE, _, _, _⟩ := hinv
  unfold refresh
  rw [hlf]
  have hcond : ∀ sha f, sha ∈ L → decodeF fj b.getChunk sha = some f →
      f.filename ≠ [] ∧ lookupNode t'.nodes f.filename = some (nodeOf f sha) ∧
      reachableB t'.nodes f.filename = true := by
    intro sha f hm hd
    have hdF := hdecL sha hm
    rw [hd, Option.some_inj] at hdF
    subst hdF
    exact ⟨hneL sha hm, hR sha ((hmem sha).2 (Or.inl hm)),
      hE sha ((hmem sha).2 (Or.inl hm))⟩
  obtain ⟨k2, hk2⟩ := refreshLoop_noop fj b.getChunk L [] t'.nodes hcond
  exact ⟨k2, hk2⟩

/-- C7, witness: the amended statement instantiated with a single record
at path `"x"`: the second pass returns the first pass's tree unchanged. -/
theorem C7_amended_witness :
    refresh (fjTable [([1], ⟨["x"], 0, 1⟩)]) (idBackend [[1]]) initialTree =
      .ok ⟨[([], { filename := [], filesize := 0, modifiedTime := 0,
                   sha256sum := none, children := some ["x"] }),
            (["x"], nodeOf ⟨["x"], 0, 1⟩ [1])]⟩ [[1]] ∧
    (∃ k2, refresh (fjTable [([1], ⟨["x"], 0, 1⟩)]) (idBackend [[1]])
      ⟨[([], { filename := [], filesize := 0, modifiedTime := 0,
               sha256sum := none, children := some ["x"] }),
        (["x"], nodeOf ⟨["x"], 0, 1⟩ [1])]⟩ =
      .ok ⟨[([], { filename := [], filesize := 0, modifiedTime := 0,
                   sha256sum := none, children := some ["x"] }),
            (["x"], nodeOf ⟨["x"], 0, 1⟩ [1])]⟩ k2) :=
  ⟨by decide,
   C7_amended (fjTable [([1], ⟨["x"], 0, 1⟩)]) (idBackend [[1]])
     (fun _ => ⟨["x"], 0, 1⟩) [[1]] rfl (by decide) (by decide) (by decide)
     (by decide)
     (by
       intro sha1 _ sha2 _ u hu he
       have hlen := congrArg List.length he
       rw [List.length_append] at hlen
       simp only [List.length_singleton] at hlen
       exact hu (List.length_eq_zero.1 (by omega)))
     ⟨[([], { filename := [], filesize := 0, modifiedTime := 0,
              sha256sum := none, children := some ["x"] }),
       (["x"], nodeOf ⟨["x"], 0, 1⟩ [1])]⟩ [[1]] (by decide)⟩

end Shade
